import Mathlib

/-!
Billions puzzle: the game state machine of `script.js`.

A shallow embedding of the class `BillionsPuzzle` (file `script.js`): the fields that carry
game state, the part of the DOM that the game reads back (the children of the pieces grid and
of every drop zone, the `filled` class, the `data-*` attributes of the pieces), and the
methods `newGame`, `dropPiece`, `shufflePieces`, `showHint` and `checkCompletion`.

Modelling conventions.

* A piece element is named by the index at which `createPieces` pushed it on `this.pieces`;
  its `dataset` is the entry of `pieces` at that index.
* A drop zone is named by the index at which `createGrid` appended it; that index is also the
  value of its `data-position`, which is never reassigned.
* `Math.floor(Math.random() * n)` is an integer in `[0, n)`; the generator is a parameter and
  its value is reduced modulo `n`.
* The callbacks that `shufflePieces` hands to `setTimeout` (all with the same delay) are run
  in scheduling order as one step, before the next user event.
* Rendering, timers, the modal and the image choice are left out.
-/

namespace BillionsPuzzle

/-- The `dataset` of a piece element: `data-correct-position` and `data-current-position`. -/
structure Piece where
  correctPosition : Nat
  currentPosition : Nat
deriving DecidableEq

/-- A drop zone element: its child pieces in order and whether it carries the class
`filled`. -/
structure DropZone where
  children : List Nat
  filled : Bool
deriving DecidableEq

/-- The game object together with the two DOM containers it manipulates. -/
structure Game where
  currentLevel : Int
  gridSize : Nat
  pieces : List Piece
  score : Int
  hintsUsed : Nat
  piecesGrid : List Nat
  puzzleGrid : List DropZone
deriving DecidableEq

/-- Outcome of `dropPiece`: a `TypeError` raised at `piece.parentNode` when the selector found
no piece, or a completed placement with the value of `isCorrect` and whether
`checkCompletion` called `completeGame`. -/
inductive DropResult where
  | typeError
  | placed (isCorrect : Bool) (completed : Bool)
deriving DecidableEq

/-- Outcome of `showHint`: the alert of the exhausted budget, the silent early return, the
position of the highlighted drop zone, or a `TypeError` when the zone selector found
nothing. -/
inductive HintResult where
  | exhausted
  | nothing
  | highlighted (position : Nat)
  | typeError
deriving DecidableEq

/-- Removal of node `x` from a child list (a node occurs under one parent only). -/
def removeNode (x : Nat) (l : List Nat) : List Nat :=
  l.filter (fun y => y != x)

/-- Removal of node `x` from a drop zone's children; the class list is untouched. -/
def detach (x : Nat) (z : DropZone) : DropZone :=
  { z with children := removeNode x z.children }

/-- Replace the element at index `i` of a list by its image under `f`. -/
def modifyAt {α : Type} (l : List α) (i : Nat) (f : α → α) : List α :=
  match l[i]? with
  | some a => l.set i (f a)
  | none => l

/-- The child lists of the drop zones, in grid order. -/
def zoneChildren (zones : List DropZone) : List (List Nat) :=
  zones.map (fun z => z.children)

/-- The call `this.elements.piecesGrid.appendChild(x)`: the node leaves its parent and becomes
the last child of the pieces grid. -/
def appendToPiecesGrid (st : Game) (x : Nat) : Game :=
  { st with
    piecesGrid := removeNode x st.piecesGrid ++ [x]
    puzzleGrid := st.puzzleGrid.map (detach x) }

/-- The call `dropZone.appendChild(x)` for the drop zone at index `s`. -/
def appendToDropZone (st : Game) (s : Nat) (x : Nat) : Game :=
  { st with
    piecesGrid := removeNode x st.piecesGrid
    puzzleGrid := modifyAt (st.puzzleGrid.map (detach x)) s
      (fun z => { z with children := z.children ++ [x] }) }

/-- The pieces below drop zones, in document order:
`document.querySelectorAll('.drop-zone .puzzle-piece')`. -/
def placedPieces (st : Game) : List Nat :=
  (zoneChildren st.puzzleGrid).flatten

/-- The method `calculateMaxScore`. -/
def calculateMaxScore (st : Game) : Int :=
  let baseScore : Int := (st.gridSize : Int) * (st.gridSize : Int) * 100
  let difficultyMultiplier := st.currentLevel
  baseScore * difficultyMultiplier

/-- The method `createGrid`: the grid is emptied and `gridSize * gridSize` empty drop zones
without the class `filled` are appended. -/
def createGrid (st : Game) : Game :=
  { st with
    puzzleGrid := List.replicate (st.gridSize * st.gridSize)
      ({ children := [], filled := false } : DropZone) }

/-- The method `createPieces`: the pieces grid and `this.pieces` are emptied and piece `i` is
created with both data attributes equal to `i`, pushed on `this.pieces` and appended to the
pieces grid. -/
def createPieces (st : Game) (totalPieces : Nat) : Game :=
  { st with
    pieces := (List.range totalPieces).map
      (fun i => ({ correctPosition := i, currentPosition := i } : Piece))
    piecesGrid := List.range totalPieces }

/-- The loop of `shufflePieces` from index `i` down to `1`, over the snapshot `pieces` of the
grid's children: the nodes handed to the deferred `appendChild`, in scheduling order. An
undefined `pieces[j]` would throw and end the loop. -/
def shuffleLoop (pieces : List Nat) (rand : Nat → Nat) : Nat → List Nat
  | 0 => []
  | i + 1 =>
    match pieces[rand (i + 1) % (i + 2)]? with
    | some x => x :: shuffleLoop pieces rand i
    | none => []

/-- The method `shufflePieces`, with its deferred moves applied; `rand i` is the draw made at
loop index `i`. -/
def shufflePieces (st : Game) (rand : Nat → Nat) : Game :=
  (shuffleLoop st.piecesGrid rand (st.piecesGrid.length - 1)).foldl appendToPiecesGrid st

/-- The method `createPuzzle`. -/
def createPuzzle (st : Game) (rand : Nat → Nat) : Game :=
  let totalPieces := st.gridSize * st.gridSize
  shufflePieces (createPieces (createGrid st) totalPieces) rand

/-- The method `newGame`. -/
def newGame (st : Game) (rand : Nat → Nat) : Game :=
  createPuzzle { st with score := calculateMaxScore st, hintsUsed := 0 } rand

/-- The method `setLevel`. -/
def setLevel (st : Game) (level : Int) (size : Nat) (rand : Nat → Nat) : Game :=
  newGame { st with currentLevel := level, gridSize := size } rand

/-- Whether the piece element `x` carries `data-correct-position = pieceId`. -/
def hasCorrectPosition (st : Game) (pieceId : Nat) (x : Nat) : Bool :=
  match st.pieces[x]? with
  | some pc => pc.correctPosition == pieceId
  | none => false

/-- The selector `document.querySelector('[data-correct-position="pieceId"]')`: the first
piece element of the document with that attribute, if any. -/
def querySelectorPiece (st : Game) (pieceId : Nat) : Option Nat :=
  (placedPieces st ++ st.piecesGrid).find? (hasCorrectPosition st pieceId)

/-- The drop zone that is the parent of node `x`, if its parent is a drop zone. -/
def parentZone (st : Game) (x : Nat) : Option Nat :=
  let i := st.puzzleGrid.findIdx (fun z => z.children.contains x)
  if i < st.puzzleGrid.length then some i else none

/-- Whether the piece element `x` has equal `data-correct-position` and
`data-current-position`. -/
def atCorrectPosition (st : Game) (x : Nat) : Bool :=
  match st.pieces[x]? with
  | some pc => pc.correctPosition == pc.currentPosition
  | none => false

/-- The method `checkCompletion`; the result tells whether `completeGame` is called. -/
def checkCompletion (st : Game) : Bool :=
  let placed := placedPieces st
  if placed.length ≠ st.pieces.length then false
  else
    let correctCount := (placed.filter (atCorrectPosition st)).length
    correctCount == st.pieces.length

/-- Assignment `piece.dataset.currentPosition = pos` on piece element `x`. -/
def setCurrentPosition (pieces : List Piece) (x : Nat) (pos : Nat) : List Piece :=
  modifyAt pieces x (fun pc => { pc with currentPosition := pos })

/-- First block of `dropPiece`: when the drop zone at index `s` has children, its first child
is appended to the pieces grid. -/
def evictExisting (st : Game) (s : Nat) : Game :=
  match (st.puzzleGrid[s]?).bind (fun z => z.children.head?) with
  | some existingPiece => appendToPiecesGrid st existingPiece
  | none => st

/-- Second block of `dropPiece`: when the parent of piece `p` is a drop zone, that zone loses
the class `filled`. -/
def clearParentFilled (st : Game) (p : Nat) : Game :=
  match parentZone st p with
  | some k =>
    { st with puzzleGrid := modifyAt st.puzzleGrid k (fun z => { z with filled := false }) }
  | none => st

/-- Third block of `dropPiece`: piece `p` is appended to the drop zone at index `s`, the zone
gets the class `filled` and the piece's current position becomes the zone's position. -/
def placePiece (st : Game) (s : Nat) (p : Nat) : Game :=
  let st3 := appendToDropZone st s p
  { st3 with
    puzzleGrid := modifyAt st3.puzzleGrid s (fun z => { z with filled := true })
    pieces := setCurrentPosition st3.pieces p s }

/-- The method `dropPiece(dropZone, pieceId)` for the drop zone at index `s`. The selector
runs first; a missing piece raises the `TypeError` only after the occupant of the zone has
been moved to the pieces grid. -/
def dropPiece (st : Game) (s : Nat) (pieceId : Nat) : Game × DropResult :=
  let piece := querySelectorPiece st pieceId
  let dropPosition := s
  let st1 := evictExisting st s
  match piece with
  | none => (st1, DropResult.typeError)
  | some p =>
    let st4 := placePiece (clearParentFilled st1 p) s p
    let isCorrect := pieceId == dropPosition
    (st4, DropResult.placed isCorrect (checkCompletion st4))

/-- The method `showHint`; `r` is the random draw. -/
def showHint (st : Game) (r : Nat) : Game × HintResult :=
  if st.hintsUsed ≥ 3 then (st, HintResult.exhausted)
  else
    let wrongPieces := st.pieces.filter (fun pc => pc.correctPosition != pc.currentPosition)
    if wrongPieces.length = 0 then (st, HintResult.nothing)
    else
      match wrongPieces[r % wrongPieces.length]? with
      | none => (st, HintResult.nothing)
      | some randomWrongPiece =>
        let correctPosition := randomWrongPiece.correctPosition
        if correctPosition < st.puzzleGrid.length then
          ({ st with hintsUsed := st.hintsUsed + 1, score := max 0 (st.score - 100) },
            HintResult.highlighted correctPosition)
        else (st, HintResult.typeError)

/-- The states of one session at level `L` and grid size `N`: `newGame` run on any earlier
state with that level and size, followed by drops on drop zones of the grid (with any piece
identifier), shuffles and hint requests. -/
inductive Reachable (L : Int) (N : Nat) : Game → Prop where
  | init (prev : Game) (rand : Nat → Nat) (hL : prev.currentLevel = L)
      (hN : prev.gridSize = N) : Reachable L N (newGame prev rand)
  | drop (st : Game) (s pieceId : Nat) (h : Reachable L N st) (hs : s < N * N) :
      Reachable L N (dropPiece st s pieceId).1
  | shuffle (st : Game) (rand : Nat → Nat) (h : Reachable L N st) :
      Reachable L N (shufflePieces st rand)
  | hint (st : Game) (r : Nat) (h : Reachable L N st) :
      Reachable L N (showHint st r).1

/-- The state of a freshly constructed `BillionsPuzzle` object before `init` has run. -/
def initial : Game :=
  { currentLevel := 1, gridSize := 3, pieces := [], score := 0, hintsUsed := 0,
    piecesGrid := [], puzzleGrid := [] }

/-- A session at level 1 on the 3 by 3 grid, started from the initial object with every
draw equal to zero. -/
def freshSession : Game :=
  newGame initial (fun _ => 0)

/-- The fresh session after piece 2 was dropped on drop zone 2. -/
def oneRightSession : Game :=
  (dropPiece freshSession 2 2).1

/-- The session in which piece 5 sits on drop zone 2 and piece 2 is back in the pieces
grid. -/
def oneWrongSession : Game :=
  (dropPiece oneRightSession 2 5).1

/-- The session in which piece 5 was moved on to drop zone 5: piece 2, once on its own zone
and then evicted, is in the pieces grid together with the seven pieces never dropped. -/
def evictedSession : Game :=
  (dropPiece oneWrongSession 5 5).1

/-- Pieces `0 .. k - 1` dropped one after the other, each on its own drop zone. -/
def solveFrom (st : Game) : Nat → Game
  | 0 => st
  | k + 1 => (dropPiece (solveFrom st k) k k).1

/-- The fresh session with all nine pieces dropped on their own zones. -/
def solvedSession : Game :=
  solveFrom freshSession 9

/-- Outcome of `nextLevel`: a new session was started through `setLevel`, or the alert that
all levels are complete was shown, or the size table has no entry for the next level (the
size passed on is `undefined`, for which the model has no grid). -/
inductive NextLevelResult where
  | started
  | allLevelsComplete
  | undefinedSize
deriving DecidableEq

/-- The method `nextLevel`. The size is read from the table `[3, 4, 5, 6]` at index
`nextLevel - 1`; closing the modal is not modelled. -/
def nextLevel (st : Game) (rand : Nat → Nat) : Game × NextLevelResult :=
  if st.currentLevel < 4 then
    let nextLevelNumber := st.currentLevel + 1
    let nextSize :=
      if 0 ≤ nextLevelNumber - 1 then [3, 4, 5, 6][(nextLevelNumber - 1).toNat]? else none
    match nextSize with
    | some size => (setLevel st nextLevelNumber size rand, NextLevelResult.started)
    | none => (st, NextLevelResult.undefinedSize)
  else (st, NextLevelResult.allLevelsComplete)

/-- The number written to the pieces-left display by `updateStats`: `totalPieces` minus the
number of drop zones with the class `filled`. -/
def piecesLeft (st : Game) : Int :=
  let placedPieces : Int := ((st.puzzleGrid.filter (fun z => z.filled)).length : Int)
  let totalPieces : Int := (st.gridSize : Int) * (st.gridSize : Int)
  totalPieces - placedPieces

/-- The fresh session with pieces 0 to 5 on their own drop zones; pieces 6, 7 and 8 are left
in the pieces grid. -/
def threeLeftSession : Game :=
  solveFrom freshSession 6

/-- The session with piece 2 on drop zone 2, after a drop on zone 2 whose identifier (77)
matches no piece. -/
def strandedSession : Game :=
  (dropPiece oneRightSession 2 77).1

/-- A session at level 4 on the 6 by 6 grid. -/
def lastLevelSession : Game :=
  setLevel initial 4 6 (fun _ => 0)

/-- The `filled` class is on exactly the drop zones that have a child. -/
def FilledInv (st : Game) : Prop :=
  ∀ (k : Nat) (z : DropZone), st.puzzleGrid[k]? = some z → (z.filled = true ↔ z.children ≠ [])

/-- The states of one session at level `L` and grid size `N` in which every drop names a
piece of the session. -/
inductive ReachableByPlacing (L : Int) (N : Nat) : Game → Prop where
  | init (prev : Game) (rand : Nat → Nat) (hL : prev.currentLevel = L)
      (hN : prev.gridSize = N) : ReachableByPlacing L N (newGame prev rand)
  | drop (st : Game) (s p : Nat) (h : ReachableByPlacing L N st) (hs : s < N * N)
      (hp : p < N * N) : ReachableByPlacing L N (dropPiece st s p).1
  | shuffle (st : Game) (rand : Nat → Nat) (h : ReachableByPlacing L N st) :
      ReachableByPlacing L N (shufflePieces st rand)
  | hint (st : Game) (r : Nat) (h : ReachableByPlacing L N st) :
      ReachableByPlacing L N (showHint st r).1

/-- The DOM is a tree: a node occurs once among the children of the pieces grid and of the
drop zones taken together. -/
def DomTree (st : Game) : Prop :=
  (st.piecesGrid ++ placedPieces st).Nodup

/-- The structural invariant of a session with grid size `N`. -/
structure Inv (N : Nat) (st : Game) : Prop where
  gridSize_eq : st.gridSize = N
  pieces_length : st.pieces.length = N * N
  pieces_correct : ∀ (i : Nat) (pc : Piece), st.pieces[i]? = some pc → pc.correctPosition = i
  grid_length : st.puzzleGrid.length = N * N
  occurs_once : ∀ x,
    st.piecesGrid.count x + (placedPieces st).count x = if x < N * N then 1 else 0
  zone_single : ∀ (k : Nat) (l : List Nat),
    (zoneChildren st.puzzleGrid)[k]? = some l → l.length ≤ 1
  zone_current : ∀ (k : Nat) (l : List Nat) (x : Nat) (pc : Piece),
    (zoneChildren st.puzzleGrid)[k]? = some l → x ∈ l →
    st.pieces[x]? = some pc → pc.currentPosition = k

/-! ## Lists -/

theorem mem_removeNode {x y : Nat} {l : List Nat} : y ∈ removeNode x l ↔ y ∈ l ∧ y ≠ x := by
  simp [removeNode]

theorem count_removeNode (x y : Nat) (l : List Nat) :
    (removeNode x l).count y = if y = x then 0 else l.count y := by
  by_cases h : y = x
  · subst h
    simp [List.count_eq_zero, mem_removeNode]
  · simp only [h, if_false, removeNode]
    exact List.count_filter (by simpa using h)

theorem length_removeNode_le (x : Nat) (l : List Nat) : (removeNode x l).length ≤ l.length :=
  List.length_filter_le _ _

theorem removeNode_eq_self {x : Nat} {l : List Nat} (h : x ∉ l) : removeNode x l = l := by
  simp only [removeNode, List.filter_eq_self]
  intro a ha
  have : a ≠ x := fun e => h (e ▸ ha)
  simpa using this

theorem flatten_map_removeNode (x : Nat) (ls : List (List Nat)) :
    (ls.map (removeNode x)).flatten = removeNode x ls.flatten := by
  induction ls with
  | nil => rfl
  | cons l ls ih => simp [removeNode, List.filter_append] at ih ⊢; exact ih

theorem length_modifyAt {α : Type} (l : List α) (i : Nat) (f : α → α) :
    (modifyAt l i f).length = l.length := by
  unfold modifyAt
  split <;> simp

theorem getElem?_modifyAt {α : Type} (l : List α) (i k : Nat) (f : α → α) :
    (modifyAt l i f)[k]? = if k = i then (l[k]?).map f else l[k]? := by
  unfold modifyAt
  by_cases hk : k = i
  · subst hk
    cases h : l[k]? with
    | none => simp [h]
    | some a =>
      have hlt : k < l.length := (List.getElem?_eq_some.mp h).1
      simp [h, List.getElem?_set, hlt]
  · cases h : l[i]? with
    | none => simp [hk]
    | some a => simp [hk, List.getElem?_set_ne (Ne.symm hk)]

theorem map_modifyAt {α β : Type} (l : List α) (i : Nat) (f : α → α) (g : α → β)
    (f2 : β → β) (h : ∀ a, g (f a) = f2 (g a)) :
    (modifyAt l i f).map g = modifyAt (l.map g) i f2 := by
  apply List.ext_getElem?
  intro k
  simp only [List.getElem?_map, getElem?_modifyAt]
  by_cases hk : k = i
  · simp only [hk, if_true]
    cases l[i]? <;> simp [h]
  · simp [hk]

theorem count_flatten_modifyAt_append (x y : Nat) (ls : List (List Nat)) (i : Nat)
    (hi : i < ls.length) :
    (modifyAt ls i (fun l => l ++ [x])).flatten.count y
      = ls.flatten.count y + if y = x then 1 else 0 := by
  induction ls generalizing i with
  | nil => simp at hi
  | cons l ls ih =>
    cases i with
    | zero =>
      simp only [modifyAt, List.getElem?_cons_zero, List.set_cons_zero, List.flatten_cons,
        List.count_append, List.count_singleton]
      by_cases h : y = x
      · subst h; simp; omega
      · have : ¬ x = y := fun e => h e.symm
        simp [h, this]
    | succ j =>
      have hj : j < ls.length := by simpa using hi
      have := ih j hj
      unfold modifyAt at this ⊢
      simp only [List.getElem?_cons_succ]
      cases hg : ls[j]? with
      | none => simp [hg] at this ⊢; omega
      | some a =>
        simp only [hg, List.set_cons_succ, List.flatten_cons, List.count_append] at this ⊢
        omega

theorem flatten_length_le_of_single (ls : List (List Nat))
    (h : ∀ l ∈ ls, l.length ≤ 1) : ls.flatten.length ≤ ls.length := by
  induction ls with
  | nil => simp
  | cons l ls ih =>
    have h1 := h l (List.mem_cons_self _ _)
    have h2 := ih (fun m hm => h m (List.mem_cons_of_mem _ hm))
    simp only [List.flatten_cons, List.length_append, List.length_cons]
    omega

theorem length_eq_one_of_flatten_length (ls : List (List Nat))
    (h : ∀ l ∈ ls, l.length ≤ 1) (hlen : ls.flatten.length = ls.length) :
    ∀ l ∈ ls, l.length = 1 := by
  induction ls with
  | nil => simp
  | cons l ls ih =>
    have h1 := h l (List.mem_cons_self _ _)
    have hrest : ∀ m ∈ ls, m.length ≤ 1 := fun m hm => h m (List.mem_cons_of_mem _ hm)
    have h2 := flatten_length_le_of_single ls hrest
    simp only [List.flatten_cons, List.length_append, List.length_cons] at hlen
    intro m hm
    rcases List.mem_cons.mp hm with rfl | hm
    · omega
    · exact ih hrest (by omega) m hm

theorem flatten_length_of_all_one (ls : List (List Nat)) (h : ∀ l ∈ ls, l.length = 1) :
    ls.flatten.length = ls.length := by
  induction ls with
  | nil => simp
  | cons l ls ih =>
    have h1 := h l (List.mem_cons_self _ _)
    have h2 := ih (fun m hm => h m (List.mem_cons_of_mem _ hm))
    simp only [List.flatten_cons, List.length_append, List.length_cons]
    omega

/-! ## The two `appendChild` calls -/

theorem zoneChildren_map_detach (x : Nat) (zones : List DropZone) :
    zoneChildren (zones.map (detach x)) = (zoneChildren zones).map (removeNode x) := by
  induction zones with
  | nil => rfl
  | cons z zs ih => simp_all [zoneChildren, detach]

theorem getElem?_zoneChildren (zones : List DropZone) (k : Nat) :
    (zoneChildren zones)[k]? = (zones[k]?).map (fun z => z.children) := by
  simp [zoneChildren]

theorem placedPieces_appendToPiecesGrid (st : Game) (x : Nat) :
    placedPieces (appendToPiecesGrid st x) = removeNode x (placedPieces st) := by
  simp [placedPieces, appendToPiecesGrid, zoneChildren_map_detach, flatten_map_removeNode]

theorem Inv.lt_of_mem_placed {N : Nat} {st : Game} (h : Inv N st) {x : Nat}
    (hx : x ∈ placedPieces st) : x < N * N := by
  have h1 := h.occurs_once x
  have h2 : 0 < (placedPieces st).count x := List.count_pos_iff.mpr hx
  by_contra hlt
  simp only [hlt, if_false] at h1
  omega

theorem Inv.lt_of_mem_grid {N : Nat} {st : Game} (h : Inv N st) {x : Nat}
    (hx : x ∈ st.piecesGrid) : x < N * N := by
  have h1 := h.occurs_once x
  have h2 : 0 < st.piecesGrid.count x := List.count_pos_iff.mpr hx
  by_contra hlt
  simp only [hlt, if_false] at h1
  omega

theorem Inv.lt_of_mem_zone {N : Nat} {st : Game} (h : Inv N st) {k x : Nat} {l : List Nat}
    (hl : (zoneChildren st.puzzleGrid)[k]? = some l) (hx : x ∈ l) : x < N * N :=
  h.lt_of_mem_placed (List.mem_flatten.mpr ⟨l, List.getElem?_mem hl, hx⟩)

theorem inv_appendToPiecesGrid {N : Nat} {st : Game} {x : Nat} (h : Inv N st)
    (hx : x < N * N) : Inv N (appendToPiecesGrid st x) := by
  refine ⟨h.gridSize_eq, h.pieces_length, h.pieces_correct, ?_, ?_, ?_, ?_⟩
  · simp [appendToPiecesGrid, h.grid_length]
  · intro y
    have h1 := h.occurs_once y
    rw [placedPieces_appendToPiecesGrid]
    simp only [appendToPiecesGrid, List.count_append, count_removeNode, List.count_singleton]
    by_cases hy : y = x
    · subst hy; simp [hx]
    · have : ¬ x = y := fun e => hy e.symm
      simpa [hy, this] using h1
  · intro k l hl
    simp only [appendToPiecesGrid, zoneChildren_map_detach, List.getElem?_map] at hl
    cases h0 : (zoneChildren st.puzzleGrid)[k]? with
    | none => simp [h0] at hl
    | some l0 =>
      simp only [h0, Option.map_some', Option.some.injEq] at hl
      subst hl
      exact le_trans (length_removeNode_le _ _) (h.zone_single k l0 h0)
  · intro k l y pc hl hy hpc
    simp only [appendToPiecesGrid, zoneChildren_map_detach, List.getElem?_map] at hl
    cases h0 : (zoneChildren st.puzzleGrid)[k]? with
    | none => simp [h0] at hl
    | some l0 =>
      simp only [h0, Option.map_some', Option.some.injEq] at hl
      subst hl
      exact h.zone_current k l0 y pc h0 (mem_removeNode.mp hy).1 hpc

/-- What the first block of `dropPiece` leaves behind: the invariant, an empty target zone,
the former occupant in the pieces grid, and no zone with a new child. -/
theorem evictExisting_spec {N : Nat} {st : Game} {s : Nat} (h : Inv N st) (hs : s < N * N) :
    Inv N (evictExisting st s)
    ∧ (zoneChildren (evictExisting st s).puzzleGrid)[s]? = some []
    ∧ (evictExisting st s).pieces = st.pieces
    ∧ (∀ (q : Nat) (l : List Nat), (zoneChildren st.puzzleGrid)[s]? = some l → q ∈ l →
        q ∈ (evictExisting st s).piecesGrid)
    ∧ (∀ (k : Nat) (l2 : List Nat),
        (zoneChildren (evictExisting st s).puzzleGrid)[k]? = some l2 →
        ∃ l : List Nat, (zoneChildren st.puzzleGrid)[k]? = some l ∧ ∀ y ∈ l2, y ∈ l) := by
  have hlen : s < st.puzzleGrid.length := by rw [h.grid_length]; exact hs
  obtain ⟨z, hz⟩ : ∃ z, st.puzzleGrid[s]? = some z := ⟨_, List.getElem?_eq_getElem hlen⟩
  have hzc : (zoneChildren st.puzzleGrid)[s]? = some z.children := by
    simp [getElem?_zoneChildren, hz]
  have hsingle := h.zone_single s _ hzc
  cases hch : z.children with
  | nil =>
    have he : evictExisting st s = st := by simp [evictExisting, hz, hch]
    rw [he]
    refine ⟨h, by simpa [hch] using hzc, rfl, ?_, ?_⟩
    · intro q l hl hq
      rw [hzc, hch] at hl
      cases hl
      simp at hq
    · intro k l2 hl2
      exact ⟨l2, hl2, fun y hy => hy⟩
  | cons q rest =>
    have hrest : rest = [] := by
      rw [hch] at hsingle
      simp at hsingle
      exact hsingle
    subst hrest
    have he : evictExisting st s = appendToPiecesGrid st q := by
      simp [evictExisting, hz, hch]
    rw [he]
    have hq : q < N * N := h.lt_of_mem_zone hzc (by simp [hch])
    refine ⟨inv_appendToPiecesGrid h hq, ?_, rfl, ?_, ?_⟩
    · simp [appendToPiecesGrid, zoneChildren_map_detach, List.getElem?_map, hzc, hch,
        removeNode]
    · intro q2 l hl hq2
      rw [hzc, hch] at hl
      cases hl
      simp at hq2
      subst hq2
      simp [appendToPiecesGrid]
    · intro k l2 hl2
      simp only [appendToPiecesGrid, zoneChildren_map_detach, List.getElem?_map] at hl2
      cases h0 : (zoneChildren st.puzzleGrid)[k]? with
      | none => simp [h0] at hl2
      | some l0 =>
        simp only [h0, Option.map_some', Option.some.injEq] at hl2
        subst hl2
        exact ⟨l0, rfl, fun y hy => (mem_removeNode.mp hy).1⟩

/-! ## The blocks of `dropPiece` -/

theorem modifyAt_eq_self {α : Type} (l : List α) (i : Nat) (f : α → α)
    (hf : ∀ a, f a = a) : modifyAt l i f = l := by
  apply List.ext_getElem?
  intro k
  rw [getElem?_modifyAt]
  split
  · cases l[k]? <;> simp [hf]
  · rfl

theorem zoneChildren_modifyAt_filled (zones : List DropZone) (k : Nat) (b : Bool) :
    zoneChildren (modifyAt zones k (fun z => { z with filled := b })) = zoneChildren zones := by
  unfold zoneChildren
  have := map_modifyAt zones k (fun z => ({ z with filled := b } : DropZone))
    (fun z => z.children) (fun l => l) (fun _ => rfl)
  rw [this]
  exact modifyAt_eq_self _ _ _ (fun _ => rfl)

theorem Inv.of_view {N : Nat} {st st2 : Game} (h : Inv N st)
    (hz : zoneChildren st2.puzzleGrid = zoneChildren st.puzzleGrid)
    (hg : st2.piecesGrid = st.piecesGrid) (hp : st2.pieces = st.pieces)
    (hn : st2.gridSize = st.gridSize) : Inv N st2 := by
  refine ⟨hn.trans h.gridSize_eq, hp ▸ h.pieces_length, hp ▸ h.pieces_correct, ?_, ?_, ?_, ?_⟩
  · have := congrArg List.length hz
    simp only [zoneChildren, List.length_map] at this
    rw [this, h.grid_length]
  · intro x
    simpa [placedPieces, hz, hg] using h.occurs_once x
  · rw [hz]; exact h.zone_single
  · rw [hz, hp]; exact h.zone_current

theorem clearParentFilled_view (st : Game) (p : Nat) :
    zoneChildren (clearParentFilled st p).puzzleGrid = zoneChildren st.puzzleGrid
    ∧ (clearParentFilled st p).piecesGrid = st.piecesGrid
    ∧ (clearParentFilled st p).pieces = st.pieces
    ∧ (clearParentFilled st p).gridSize = st.gridSize
    ∧ (clearParentFilled st p).score = st.score
    ∧ (clearParentFilled st p).hintsUsed = st.hintsUsed
    ∧ (clearParentFilled st p).currentLevel = st.currentLevel := by
  unfold clearParentFilled
  split
  · exact ⟨zoneChildren_modifyAt_filled _ _ _, rfl, rfl, rfl, rfl, rfl, rfl⟩
  · exact ⟨rfl, rfl, rfl, rfl, rfl, rfl, rfl⟩

theorem zoneChildren_placePiece (st : Game) (s p : Nat) :
    zoneChildren (placePiece st s p).puzzleGrid
      = modifyAt ((zoneChildren st.puzzleGrid).map (removeNode p)) s (fun l => l ++ [p]) := by
  simp only [placePiece, appendToDropZone, zoneChildren_modifyAt_filled]
  rw [← zoneChildren_map_detach]
  exact map_modifyAt _ _ _ _ _ (fun _ => rfl)

/-- What the third block of `dropPiece` does to a state whose target zone is empty. -/
theorem placePiece_spec {N : Nat} {st : Game} {s p : Nat} (h : Inv N st) (hs : s < N * N)
    (hp : p < N * N) (hempty : (zoneChildren st.puzzleGrid)[s]? = some []) :
    Inv N (placePiece st s p)
    ∧ (zoneChildren (placePiece st s p).puzzleGrid)[s]? = some [p]
    ∧ (placePiece st s p).pieces[p]? = some { correctPosition := p, currentPosition := s }
    ∧ (placePiece st s p).piecesGrid = removeNode p st.piecesGrid
    ∧ (∀ (k : Nat) (l2 : List Nat), k ≠ s →
        (zoneChildren (placePiece st s p).puzzleGrid)[k]? = some l2 →
        ∃ l : List Nat, (zoneChildren st.puzzleGrid)[k]? = some l ∧ l2 = removeNode p l) := by
  have hzs : (zoneChildren (placePiece st s p).puzzleGrid)[s]? = some [p] := by
    rw [zoneChildren_placePiece, getElem?_modifyAt]
    simp [List.getElem?_map, hempty, removeNode]
  have hzk : ∀ (k : Nat) (l2 : List Nat), k ≠ s →
      (zoneChildren (placePiece st s p).puzzleGrid)[k]? = some l2 →
      ∃ l : List Nat, (zoneChildren st.puzzleGrid)[k]? = some l ∧ l2 = removeNode p l := by
    intro k l2 hk hl2
    rw [zoneChildren_placePiece, getElem?_modifyAt] at hl2
    simp only [hk, if_false, List.getElem?_map] at hl2
    cases h0 : (zoneChildren st.puzzleGrid)[k]? with
    | none => simp [h0] at hl2
    | some l0 =>
      simp only [h0, Option.map_some', Option.some.injEq] at hl2
      exact ⟨l0, rfl, hl2.symm⟩
  have hplen : p < st.pieces.length := by rw [h.pieces_length]; exact hp
  obtain ⟨pc, hpc⟩ : ∃ pc, st.pieces[p]? = some pc := ⟨_, List.getElem?_eq_getElem hplen⟩
  have hpcc : pc.correctPosition = p := h.pieces_correct p pc hpc
  have hpieces : ∀ k, (placePiece st s p).pieces[k]?
      = if k = p then (st.pieces[k]?).map (fun pc => { pc with currentPosition := s })
        else st.pieces[k]? := by
    intro k
    simp only [placePiece, appendToDropZone, setCurrentPosition]
    exact getElem?_modifyAt _ _ _ _
  have hpp : (placePiece st s p).pieces[p]? = some { correctPosition := p, currentPosition := s } := by
    rw [hpieces p]
    simp [hpc, hpcc]
  refine ⟨⟨h.gridSize_eq, ?_, ?_, ?_, ?_, ?_, ?_⟩, hzs, hpp, rfl, hzk⟩
  · simp only [placePiece, appendToDropZone, setCurrentPosition, length_modifyAt]
    exact h.pieces_length
  · intro i pc2 hi
    rw [hpieces i] at hi
    by_cases hip : i = p
    · subst hip
      simp [hpc] at hi
      rw [← hi]
      exact hpcc
    · simp only [hip, if_false] at hi
      exact h.pieces_correct i pc2 hi
  · simp only [placePiece, appendToDropZone, length_modifyAt, List.length_map]
    exact h.grid_length
  · intro y
    have h1 := h.occurs_once y
    have hslen : s < ((zoneChildren st.puzzleGrid).map (removeNode p)).length := by
      simp [zoneChildren, h.grid_length, hs]
    have hcount : (placedPieces (placePiece st s p)).count y
        = (removeNode p (placedPieces st)).count y + if y = p then 1 else 0 := by
      unfold placedPieces
      rw [zoneChildren_placePiece, count_flatten_modifyAt_append p y _ s hslen,
        flatten_map_removeNode]
    rw [hcount]
    have hgrid : (placePiece st s p).piecesGrid = removeNode p st.piecesGrid := rfl
    rw [hgrid, count_removeNode, count_removeNode]
    by_cases hy : y = p
    · subst hy; simp [hp]
    · simpa [hy] using h1
  · intro k l hl
    by_cases hk : k = s
    · subst hk
      rw [hzs] at hl
      cases hl
      simp
    · obtain ⟨l0, h0, rfl⟩ := hzk k l hk hl
      exact le_trans (length_removeNode_le _ _) (h.zone_single k l0 h0)
  · intro k l y pc2 hl hy hpc2
    by_cases hk : k = s
    · subst hk
      rw [hzs] at hl
      cases hl
      simp at hy
      subst hy
      rw [hpp] at hpc2
      cases hpc2
      rfl
    · obtain ⟨l0, h0, rfl⟩ := hzk k l hk hl
      have hy2 := mem_removeNode.mp hy
      rw [hpieces y] at hpc2
      simp only [hy2.2, if_false] at hpc2
      exact h.zone_current k l0 y pc2 h0 hy2.1 hpc2

/-- In a state that satisfies the invariant the piece selector finds exactly the pieces of
the session. -/
theorem querySelectorPiece_spec {N : Nat} {st : Game} (h : Inv N st) (pieceId : Nat) :
    querySelectorPiece st pieceId = if pieceId < N * N then some pieceId else none := by
  have hmem : ∀ x, x ∈ placedPieces st ++ st.piecesGrid ↔ x < N * N := by
    intro x
    have h1 := h.occurs_once x
    rw [List.mem_append, ← List.count_pos_iff, ← List.count_pos_iff (l := st.piecesGrid)]
    by_cases hx : x < N * N
    · simp only [hx, if_true] at h1
      simp only [hx, iff_true]
      omega
    · simp only [hx, if_false] at h1
      simp only [hx, iff_false]
      omega
  have hpred : ∀ x, x ∈ placedPieces st ++ st.piecesGrid →
      hasCorrectPosition st pieceId x = (x == pieceId) := by
    intro x hx
    have hlt : x < st.pieces.length := by rw [h.pieces_length]; exact (hmem x).mp hx
    obtain ⟨pc, hpc⟩ : ∃ pc, st.pieces[x]? = some pc := ⟨_, List.getElem?_eq_getElem hlt⟩
    have := h.pieces_correct x pc hpc
    simp [hasCorrectPosition, hpc, this]
  unfold querySelectorPiece
  by_cases hp : pieceId < N * N
  · simp only [hp, if_true]
    cases hf : (placedPieces st ++ st.piecesGrid).find? (hasCorrectPosition st pieceId) with
    | none =>
      rw [List.find?_eq_none] at hf
      have := hf pieceId ((hmem pieceId).mpr hp)
      rw [hpred pieceId ((hmem pieceId).mpr hp)] at this
      simp at this
    | some y =>
      have h1 := List.find?_some hf
      have h2 := List.mem_of_find?_eq_some hf
      rw [hpred y h2] at h1
      simp at h1
      rw [h1]
  · simp only [hp, if_false]
    rw [List.find?_eq_none]
    intro x hx
    rw [hpred x hx]
    have := (hmem x).mp hx
    simp
    omega

/-! ## `dropPiece` as a whole -/

theorem evictExisting_frame (st : Game) (s : Nat) :
    (evictExisting st s).score = st.score
    ∧ (evictExisting st s).hintsUsed = st.hintsUsed
    ∧ (evictExisting st s).currentLevel = st.currentLevel
    ∧ (evictExisting st s).gridSize = st.gridSize := by
  unfold evictExisting
  split <;> exact ⟨rfl, rfl, rfl, rfl⟩

theorem dropPiece_frame (st : Game) (s pieceId : Nat) :
    (dropPiece st s pieceId).1.score = st.score
    ∧ (dropPiece st s pieceId).1.hintsUsed = st.hintsUsed
    ∧ (dropPiece st s pieceId).1.currentLevel = st.currentLevel
    ∧ (dropPiece st s pieceId).1.gridSize = st.gridSize := by
  have he := evictExisting_frame st s
  unfold dropPiece
  cases querySelectorPiece st pieceId with
  | none => exact he
  | some p =>
    have hc := clearParentFilled_view (evictExisting st s) p
    simp only [placePiece, appendToDropZone]
    exact ⟨hc.2.2.2.2.1.trans he.1, hc.2.2.2.2.2.1.trans he.2.1,
      hc.2.2.2.2.2.2.trans he.2.2.1, hc.2.2.2.1.trans he.2.2.2⟩

theorem dropPiece_of_lt {N : Nat} {st : Game} (h : Inv N st) (s : Nat) {p : Nat}
    (hp : p < N * N) :
    dropPiece st s p
      = (placePiece (clearParentFilled (evictExisting st s) p) s p,
          DropResult.placed (p == s)
            (checkCompletion (placePiece (clearParentFilled (evictExisting st s) p) s p))) := by
  have hq := querySelectorPiece_spec h p
  simp only [hp, if_true] at hq
  simp only [dropPiece, hq]

theorem dropPiece_of_not_lt {N : Nat} {st : Game} (h : Inv N st) (s : Nat) {p : Nat}
    (hp : ¬ p < N * N) :
    dropPiece st s p = (evictExisting st s, DropResult.typeError) := by
  have hq := querySelectorPiece_spec h p
  simp only [hp, if_false] at hq
  simp only [dropPiece, hq]

/-- The state before the third block of `dropPiece` satisfies the invariant and its target
zone is empty. -/
theorem cleared_spec {N : Nat} {st : Game} {s : Nat} (h : Inv N st) (hs : s < N * N)
    (p : Nat) :
    Inv N (clearParentFilled (evictExisting st s) p)
    ∧ (zoneChildren (clearParentFilled (evictExisting st s) p).puzzleGrid)[s]? = some [] := by
  have he := evictExisting_spec h hs
  have hc := clearParentFilled_view (evictExisting st s) p
  exact ⟨he.1.of_view hc.1 hc.2.1 hc.2.2.1 hc.2.2.2.1, by rw [hc.1]; exact he.2.1⟩

theorem inv_dropPiece {N : Nat} {st : Game} (h : Inv N st) {s : Nat} (hs : s < N * N)
    (pieceId : Nat) : Inv N (dropPiece st s pieceId).1 := by
  by_cases hp : pieceId < N * N
  · rw [dropPiece_of_lt h s hp]
    have hc := cleared_spec h hs pieceId
    exact (placePiece_spec hc.1 hs hp hc.2).1
  · rw [dropPiece_of_not_lt h s hp]
    exact (evictExisting_spec h hs).1

/-! ## `shufflePieces` -/

theorem Inv.domTree {N : Nat} {st : Game} (h : Inv N st) : DomTree st := by
  unfold DomTree
  rw [List.nodup_iff_count_le_one]
  intro x
  have := h.occurs_once x
  rw [List.count_append]
  split at this <;> omega

theorem appendToPiecesGrid_of_mem {st : Game} {x : Nat} (hd : DomTree st)
    (hx : x ∈ st.piecesGrid) :
    (appendToPiecesGrid st x).piecesGrid.Perm st.piecesGrid
    ∧ (appendToPiecesGrid st x).puzzleGrid = st.puzzleGrid := by
  unfold DomTree at hd
  have hnd := List.nodup_append.mp hd
  constructor
  · rw [List.perm_iff_count]
    intro y
    simp only [appendToPiecesGrid, List.count_append, count_removeNode, List.count_singleton]
    by_cases hy : y = x
    · subst hy
      simp [List.count_eq_one_of_mem hnd.1 hx]
    · have : ¬ x = y := fun e => hy e.symm
      simp [hy, this]
  · have hnot : x ∉ placedPieces st := fun hp => hnd.2.2 hx hp
    simp only [appendToPiecesGrid]
    conv_rhs => rw [← List.map_id st.puzzleGrid]
    apply List.map_congr_left
    intro z hz
    have hxz : x ∉ z.children := by
      intro hc
      apply hnot
      unfold placedPieces zoneChildren
      exact List.mem_flatten.mpr ⟨z.children, List.mem_map.mpr ⟨z, hz, rfl⟩, hc⟩
    simp [detach, removeNode_eq_self hxz]

theorem foldl_appendToPiecesGrid (xs : List Nat) :
    ∀ st : Game, DomTree st → (∀ x ∈ xs, x ∈ st.piecesGrid) →
      (xs.foldl appendToPiecesGrid st).piecesGrid.Perm st.piecesGrid
      ∧ (xs.foldl appendToPiecesGrid st).puzzleGrid = st.puzzleGrid
      ∧ (xs.foldl appendToPiecesGrid st).pieces = st.pieces
      ∧ (xs.foldl appendToPiecesGrid st).score = st.score
      ∧ (xs.foldl appendToPiecesGrid st).hintsUsed = st.hintsUsed
      ∧ (xs.foldl appendToPiecesGrid st).currentLevel = st.currentLevel
      ∧ (xs.foldl appendToPiecesGrid st).gridSize = st.gridSize := by
  induction xs with
  | nil => intro st _ _; exact ⟨List.Perm.refl _, rfl, rfl, rfl, rfl, rfl, rfl⟩
  | cons x xs ih =>
    intro st hd hmem
    have hx := hmem x (List.mem_cons_self _ _)
    have h1 := appendToPiecesGrid_of_mem hd hx
    have hd2 : DomTree (appendToPiecesGrid st x) := by
      unfold DomTree placedPieces at hd ⊢
      rw [h1.2]
      exact (List.Perm.append_right _ h1.1).nodup_iff.mpr hd
    have hmem2 : ∀ y ∈ xs, y ∈ (appendToPiecesGrid st x).piecesGrid :=
      fun y hy => h1.1.mem_iff.mpr (hmem y (List.mem_cons_of_mem _ hy))
    have h2 := ih (appendToPiecesGrid st x) hd2 hmem2
    simp only [List.foldl_cons]
    exact ⟨h2.1.trans h1.1, h2.2.1.trans h1.2, h2.2.2.1, h2.2.2.2.1, h2.2.2.2.2.1,
      h2.2.2.2.2.2.1, h2.2.2.2.2.2.2⟩

theorem shuffleLoop_mem (pieces : List Nat) (rand : Nat → Nat) (n : Nat) :
    ∀ x ∈ shuffleLoop pieces rand n, x ∈ pieces := by
  induction n with
  | zero => intro x hx; simp [shuffleLoop] at hx
  | succ i ih =>
    intro x hx
    unfold shuffleLoop at hx
    split at hx
    · next y hy =>
      rcases List.mem_cons.mp hx with rfl | hx
      · exact List.getElem?_mem hy
      · exact ih x hx
    · simp at hx

/-- The effect of `shufflePieces` on a well-formed DOM. -/
theorem shufflePieces_spec {st : Game} (hd : DomTree st) (rand : Nat → Nat) :
    (shufflePieces st rand).piecesGrid.Perm st.piecesGrid
    ∧ (shufflePieces st rand).puzzleGrid = st.puzzleGrid
    ∧ (shufflePieces st rand).pieces = st.pieces
    ∧ (shufflePieces st rand).score = st.score
    ∧ (shufflePieces st rand).hintsUsed = st.hintsUsed
    ∧ (shufflePieces st rand).currentLevel = st.currentLevel
    ∧ (shufflePieces st rand).gridSize = st.gridSize :=
  foldl_appendToPiecesGrid _ st hd (shuffleLoop_mem _ _ _)

theorem inv_shufflePieces {N : Nat} {st : Game} (h : Inv N st) (rand : Nat → Nat) :
    Inv N (shufflePieces st rand) := by
  have hs := shufflePieces_spec h.domTree rand
  refine ⟨hs.2.2.2.2.2.2.trans h.gridSize_eq, ?_, ?_, ?_, ?_, ?_, ?_⟩
  · rw [hs.2.2.1]; exact h.pieces_length
  · rw [hs.2.2.1]; exact h.pieces_correct
  · rw [hs.2.1]; exact h.grid_length
  · intro x
    unfold placedPieces
    rw [hs.2.1, hs.1.count_eq]
    exact h.occurs_once x
  · rw [hs.2.1]; exact h.zone_single
  · rw [hs.2.1, hs.2.2.1]; exact h.zone_current

/-! ## `showHint` and `newGame` -/

theorem showHint_view (st : Game) (r : Nat) :
    (showHint st r).1.pieces = st.pieces
    ∧ (showHint st r).1.piecesGrid = st.piecesGrid
    ∧ (showHint st r).1.puzzleGrid = st.puzzleGrid
    ∧ (showHint st r).1.gridSize = st.gridSize
    ∧ (showHint st r).1.currentLevel = st.currentLevel := by
  unfold showHint
  split
  · exact ⟨rfl, rfl, rfl, rfl, rfl⟩
  · dsimp only
    split
    · exact ⟨rfl, rfl, rfl, rfl, rfl⟩
    · split
      · exact ⟨rfl, rfl, rfl, rfl, rfl⟩
      · split <;> exact ⟨rfl, rfl, rfl, rfl, rfl⟩

theorem inv_showHint {N : Nat} {st : Game} (h : Inv N st) (r : Nat) :
    Inv N (showHint st r).1 := by
  have hv := showHint_view st r
  exact h.of_view (by rw [hv.2.2.1]) hv.2.1 hv.1 hv.2.2.2.1

theorem count_range (n x : Nat) : (List.range n).count x = if x < n then 1 else 0 := by
  split
  · next h => exact List.count_eq_one_of_mem (List.nodup_range n) (List.mem_range.mpr h)
  · next h => exact List.count_eq_zero.mpr (fun hm => h (List.mem_range.mp hm))

theorem zoneChildren_replicate (n : Nat) (b : Bool) :
    zoneChildren (List.replicate n ({ children := [], filled := b } : DropZone))
      = List.replicate n [] := by
  simp [zoneChildren]

theorem flatten_replicate_nil (n : Nat) :
    (List.replicate n ([] : List Nat)).flatten = [] := by
  induction n with
  | zero => rfl
  | succ n ih => simp [List.replicate_succ, ih]

/-- The state built by `createGrid` and `createPieces`, before the shuffle. -/
theorem inv_created (st : Game) :
    Inv st.gridSize (createPieces (createGrid st) (st.gridSize * st.gridSize)) := by
  refine ⟨rfl, ?_, ?_, ?_, ?_, ?_, ?_⟩
  · simp [createPieces]
  · intro i pc hi
    simp only [createPieces, List.getElem?_map] at hi
    cases hr : (List.range (st.gridSize * st.gridSize))[i]? with
    | none => simp [hr] at hi
    | some j =>
      have hj := (List.getElem?_eq_some.mp hr)
      obtain ⟨hlt, hj⟩ := hj
      simp at hj
      simp [hr] at hi
      rw [← hi, ← hj]
  · simp [createPieces, createGrid]
  · intro x
    simp only [placedPieces, createPieces, createGrid, zoneChildren_replicate,
      flatten_replicate_nil, List.count_nil, Nat.add_zero]
    exact count_range _ _
  · intro k l hl
    simp only [createPieces, createGrid, zoneChildren_replicate, List.getElem?_replicate] at hl
    split at hl
    · cases hl; simp
    · cases hl
  · intro k l x pc hl hx
    simp only [createPieces, createGrid, zoneChildren_replicate, List.getElem?_replicate] at hl
    split at hl
    · cases hl; simp at hx
    · cases hl

theorem inv_newGame (prev : Game) (rand : Nat → Nat) :
    Inv prev.gridSize (newGame prev rand) := by
  unfold newGame createPuzzle
  exact inv_shufflePieces
    (inv_created { prev with score := calculateMaxScore prev, hintsUsed := 0 }) rand

/-- Every state of a session satisfies the structural invariant and keeps the level. -/
theorem reachable_inv {L : Int} {N : Nat} {st : Game} (h : Reachable L N st) :
    Inv N st ∧ st.currentLevel = L := by
  induction h with
  | init prev rand hL hN =>
    refine ⟨hN ▸ inv_newGame prev rand, ?_⟩
    have := (shufflePieces_spec
      (inv_created { prev with score := calculateMaxScore prev, hintsUsed := 0 }).domTree
      rand).2.2.2.2.2.1
    simp only [newGame, createPuzzle]
    rw [this]
    exact hL
  | drop st s pieceId _ hs ih =>
    exact ⟨inv_dropPiece ih.1 hs pieceId, (dropPiece_frame st s pieceId).2.2.1.trans ih.2⟩
  | shuffle st rand _ ih =>
    exact ⟨inv_shufflePieces ih.1 rand,
      (shufflePieces_spec ih.1.domTree rand).2.2.2.2.2.1.trans ih.2⟩
  | hint st r _ ih =>
    exact ⟨inv_showHint ih.1 r, (showHint_view st r).2.2.2.2.trans ih.2⟩

/-! ## Derived facts used by the main theorems -/

theorem getElem?_zoneChildren_eq_some {zones : List DropZone} {k : Nat} {l : List Nat} :
    (zoneChildren zones)[k]? = some l ↔ ∃ z, zones[k]? = some z ∧ z.children = l := by
  rw [getElem?_zoneChildren]
  cases zones[k]? <;> simp

theorem Inv.getElem?_pieces {N : Nat} {st : Game} (h : Inv N st) {x : Nat} (hx : x < N * N) :
    ∃ pc, st.pieces[x]? = some pc ∧ pc.correctPosition = x := by
  have hlt : x < st.pieces.length := by rw [h.pieces_length]; exact hx
  exact ⟨_, List.getElem?_eq_getElem hlt, h.pieces_correct x _ (List.getElem?_eq_getElem hlt)⟩

theorem Inv.getElem?_zone {N : Nat} {st : Game} (h : Inv N st) {k : Nat} (hk : k < N * N) :
    ∃ l, (zoneChildren st.puzzleGrid)[k]? = some l := by
  have hlt : k < (zoneChildren st.puzzleGrid).length := by
    simp [zoneChildren, h.grid_length, hk]
  exact ⟨_, List.getElem?_eq_getElem hlt⟩

theorem Inv.lt_of_getElem?_zone {N : Nat} {st : Game} (h : Inv N st) {k : Nat} {l : List Nat}
    (hl : (zoneChildren st.puzzleGrid)[k]? = some l) : k < N * N := by
  have := (List.getElem?_eq_some.mp hl).1
  simpa [zoneChildren, h.grid_length] using this

/-- The completion check on a state that satisfies the invariant. -/
theorem checkCompletion_iff {N : Nat} {st : Game} (h : Inv N st) :
    checkCompletion st = true
      ↔ ∀ k, k < N * N → (zoneChildren st.puzzleGrid)[k]? = some [k] := by
  have hzlen : (zoneChildren st.puzzleGrid).length = st.pieces.length := by
    simp [zoneChildren, h.grid_length, h.pieces_length]
  have hsingle : ∀ l ∈ zoneChildren st.puzzleGrid, l.length ≤ 1 := by
    intro l hl
    obtain ⟨k, hk⟩ := List.mem_iff_getElem?.mp hl
    exact h.zone_single k l hk
  constructor
  · intro hc
    have hboth : (placedPieces st).length = st.pieces.length
        ∧ ((placedPieces st).filter (atCorrectPosition st)).length = st.pieces.length := by
      unfold checkCompletion at hc
      by_cases hlen : (placedPieces st).length = st.pieces.length
      · simp only [hlen, ne_eq, not_true_eq_false, if_false] at hc
        exact ⟨hlen, by simpa using hc⟩
      · simp [hlen] at hc
    have hone := length_eq_one_of_flatten_length _ hsingle
      (by rw [hzlen]; exact hboth.1)
    have hcorrect : ∀ x ∈ placedPieces st, atCorrectPosition st x = true :=
      List.filter_length_eq_length.mp (by rw [hboth.2, hboth.1])
    intro k hk
    obtain ⟨l, hl⟩ := h.getElem?_zone hk
    have hl1 := hone l (List.getElem?_mem hl)
    obtain ⟨x, rfl⟩ := List.length_eq_one.mp hl1
    have hxp : x ∈ placedPieces st :=
      List.mem_flatten.mpr ⟨[x], List.getElem?_mem hl, by simp⟩
    have hat := hcorrect x hxp
    obtain ⟨pc, hpc, hpcc⟩ := h.getElem?_pieces (h.lt_of_mem_placed hxp)
    have hcur := h.zone_current k [x] x pc hl (by simp) hpc
    simp only [atCorrectPosition, hpc, beq_iff_eq] at hat
    rw [hl]
    have : x = k := by omega
    rw [this]
  · intro hall
    have hone : ∀ l ∈ zoneChildren st.puzzleGrid, l.length = 1 := by
      intro l hl
      obtain ⟨k, hk⟩ := List.mem_iff_getElem?.mp hl
      have := hall k (h.lt_of_getElem?_zone hk)
      rw [hk] at this
      cases this
      rfl
    have hlen : (placedPieces st).length = st.pieces.length := by
      unfold placedPieces
      rw [flatten_length_of_all_one _ hone, hzlen]
    have hcorrect : ∀ x ∈ placedPieces st, atCorrectPosition st x = true := by
      intro x hx
      obtain ⟨l, hl, hxl⟩ := List.mem_flatten.mp hx
      obtain ⟨k, hk⟩ := List.mem_iff_getElem?.mp hl
      have hkk := hall k (h.lt_of_getElem?_zone hk)
      obtain ⟨pc, hpc, hpcc⟩ := h.getElem?_pieces (h.lt_of_mem_placed hx)
      have hcur := h.zone_current k l x pc hk hxl hpc
      rw [hk] at hkk
      cases hkk
      simp only [List.mem_singleton] at hxl
      simp only [atCorrectPosition, hpc, beq_iff_eq]
      omega
    unfold checkCompletion
    simp only [hlen, ne_eq, not_true_eq_false, if_false]
    rw [List.filter_length_eq_length.mpr hcorrect, hlen]
    simp

/-- The state after a drop of an existing piece on a zone of the grid. -/
theorem dropPiece_spec {N : Nat} {st : Game} {s p : Nat} (h : Inv N st) (hs : s < N * N)
    (hp : p < N * N) :
    (dropPiece st s p).2 = DropResult.placed (p == s) (checkCompletion (dropPiece st s p).1)
    ∧ Inv N (dropPiece st s p).1
    ∧ (zoneChildren (dropPiece st s p).1.puzzleGrid)[s]? = some [p]
    ∧ (dropPiece st s p).1.pieces[p]? = some { correctPosition := p, currentPosition := s }
    ∧ (∀ (q : Nat) (l : List Nat), (zoneChildren st.puzzleGrid)[s]? = some l → q ∈ l →
        q ≠ p → q ∈ (dropPiece st s p).1.piecesGrid)
    ∧ (∀ (k : Nat) (l2 : List Nat), k ≠ s →
        (zoneChildren (dropPiece st s p).1.puzzleGrid)[k]? = some l2 →
        p ∉ l2 ∧ ∃ l : List Nat, (zoneChildren st.puzzleGrid)[k]? = some l ∧ ∀ y ∈ l2, y ∈ l) := by
  rw [dropPiece_of_lt h s hp]
  have he := evictExisting_spec h hs
  have hv := clearParentFilled_view (evictExisting st s) p
  have hc := cleared_spec h hs p
  have hpl := placePiece_spec hc.1 hs hp hc.2
  refine ⟨rfl, hpl.1, hpl.2.1, hpl.2.2.1, ?_, ?_⟩
  · intro q l hl hq hqp
    have h1 := he.2.2.2.1 q l hl hq
    show q ∈ (placePiece (clearParentFilled (evictExisting st s) p) s p).piecesGrid
    rw [hpl.2.2.2.1, hv.2.1]
    exact mem_removeNode.mpr ⟨h1, hqp⟩
  · intro k l2 hk hl2
    obtain ⟨l1, hl1, rfl⟩ := hpl.2.2.2.2 k l2 hk hl2
    rw [hv.1] at hl1
    obtain ⟨l0, hl0, hsub⟩ := he.2.2.2.2 k l1 hl1
    refine ⟨fun hmem => (mem_removeNode.mp hmem).2 rfl, l0, hl0, ?_⟩
    intro y hy
    exact hsub y (mem_removeNode.mp hy).1

/-! ## Main theorems -/

/-- C1. In every state of a session, when an existing piece is dropped on a drop zone of the
grid, `dropPiece` ends by running the completion check on the new state, and that check
calls `completeGame` exactly when every drop zone `k` below `N * N` has as its only child the
piece whose correct position is `k`. -/
theorem completion_iff_every_zone_holds_its_piece {L : Int} {N : Nat} {st : Game}
    (h : Reachable L N st) (s p : Nat) (hs : s < N * N) (hp : p < N * N) :
    ∃ isCorrect completed,
      (dropPiece st s p).2 = DropResult.placed isCorrect completed
      ∧ completed = checkCompletion (dropPiece st s p).1
      ∧ (completed = true ↔
          ∀ k, k < N * N →
            ∃ z x pc, (dropPiece st s p).1.puzzleGrid[k]? = some z ∧ z.children = [x]
              ∧ (dropPiece st s p).1.pieces[x]? = some pc ∧ pc.correctPosition = k) := by
  have hinv := (reachable_inv h).1
  have hd := dropPiece_spec hinv hs hp
  refine ⟨_, _, hd.1, rfl, ?_⟩
  rw [checkCompletion_iff hd.2.1]
  constructor
  · intro hall k hk
    obtain ⟨z, hz, hzc⟩ := getElem?_zoneChildren_eq_some.mp (hall k hk)
    obtain ⟨pc, hpc, hpcc⟩ := hd.2.1.getElem?_pieces hk
    exact ⟨z, k, pc, hz, hzc, hpc, hpcc⟩
  · intro hall k hk
    obtain ⟨z, x, pc, hz, hzc, hpc, hpcc⟩ := hall k hk
    have hl : (zoneChildren (dropPiece st s p).1.puzzleGrid)[k]? = some [x] :=
      getElem?_zoneChildren_eq_some.mpr ⟨z, hz, hzc⟩
    have hx := hd.2.1.pieces_correct x pc hpc
    have : x = k := by omega
    rw [hl, this]

/-- C1, at a concrete input: piece 2 dropped on drop zone 2 of a fresh 3 by 3 session. -/
theorem completion_iff_every_zone_holds_its_piece_witness :
    Reachable 1 3 freshSession ∧
    ∃ isCorrect completed,
      (dropPiece freshSession 2 2).2 = DropResult.placed isCorrect completed
      ∧ completed = checkCompletion (dropPiece freshSession 2 2).1
      ∧ (completed = true ↔
          ∀ k, k < 3 * 3 →
            ∃ z x pc, (dropPiece freshSession 2 2).1.puzzleGrid[k]? = some z
              ∧ z.children = [x]
              ∧ (dropPiece freshSession 2 2).1.pieces[x]? = some pc
              ∧ pc.correctPosition = k) :=
  ⟨Reachable.init initial (fun _ => 0) rfl rfl,
    completion_iff_every_zone_holds_its_piece
      (Reachable.init initial (fun _ => 0) rfl rfl) 2 2 (by decide) (by decide)⟩

/-- C2. In every state of a session, when an existing piece `p` is dropped on a drop zone
that holds a different piece `q`, the drop is carried out, and afterwards `q` is still a piece
of the session, occurs exactly once in the pieces grid and is a child of no drop zone. -/
theorem occupant_evicted_to_pool {L : Int} {N : Nat} {st : Game} (h : Reachable L N st)
    (s p q : Nat) (z : DropZone) (hp : p < N * N) (hz : st.puzzleGrid[s]? = some z)
    (hq : q ∈ z.children) (hqp : q ≠ p) :
    (∃ isCorrect completed, (dropPiece st s p).2 = DropResult.placed isCorrect completed)
    ∧ (∃ pc, (dropPiece st s p).1.pieces[q]? = some pc ∧ pc.correctPosition = q)
    ∧ (dropPiece st s p).1.piecesGrid.count q = 1
    ∧ ∀ (k : Nat) (z2 : DropZone), (dropPiece st s p).1.puzzleGrid[k]? = some z2 →
        q ∉ z2.children := by
  have hinv := (reachable_inv h).1
  have hzc : (zoneChildren st.puzzleGrid)[s]? = some z.children :=
    getElem?_zoneChildren_eq_some.mpr ⟨z, hz, rfl⟩
  have hs : s < N * N := hinv.lt_of_getElem?_zone hzc
  have hd := dropPiece_spec hinv hs hp
  have hqpool := hd.2.2.2.2.1 q _ hzc hq hqp
  have hqlt : q < N * N := hd.2.1.lt_of_mem_grid hqpool
  have hocc := hd.2.1.occurs_once q
  simp only [hqlt, if_true] at hocc
  have hpos : 0 < (dropPiece st s p).1.piecesGrid.count q := List.count_pos_iff.mpr hqpool
  refine ⟨⟨_, _, hd.1⟩, hd.2.1.getElem?_pieces hqlt, by omega, ?_⟩
  intro k z2 hz2 hmem
  have hplaced : q ∈ placedPieces (dropPiece st s p).1 :=
    List.mem_flatten.mpr ⟨z2.children,
      List.getElem?_mem (getElem?_zoneChildren_eq_some.mpr ⟨z2, hz2, rfl⟩), hmem⟩
  have := List.count_pos_iff.mpr hplaced
  omega

/-- C2, at a concrete input: piece 5 dropped on drop zone 2, which holds piece 2. -/
theorem occupant_evicted_to_pool_witness :
    Reachable 1 3 oneRightSession
    ∧ oneRightSession.puzzleGrid[2]? = some { children := [2], filled := true }
    ∧ (∃ isCorrect completed,
        (dropPiece oneRightSession 2 5).2 = DropResult.placed isCorrect completed)
    ∧ (∃ pc, (dropPiece oneRightSession 2 5).1.pieces[2]? = some pc ∧ pc.correctPosition = 2)
    ∧ (dropPiece oneRightSession 2 5).1.piecesGrid.count 2 = 1
    ∧ ∀ (k : Nat) (z2 : DropZone), (dropPiece oneRightSession 2 5).1.puzzleGrid[k]? = some z2 →
        2 ∉ z2.children :=
  ⟨Reachable.drop _ 2 2 (Reachable.init initial (fun _ => 0) rfl rfl) (by decide),
    by decide,
    occupant_evicted_to_pool
      (Reachable.drop _ 2 2 (Reachable.init initial (fun _ => 0) rfl rfl) (by decide))
      2 5 2 { children := [2], filled := true } (by decide) (by decide) (by decide)
      (by decide)⟩

/-- C3. Placement invariant: in every state of a session on the `N` by `N` grid the pieces
are those with correct positions `0 .. N * N - 1`, there are `N * N` drop zones, the children
of the pieces grid followed by the children of all drop zones list every piece exactly once
(none lost, none duplicated, none in two places), and a drop zone has at most one child. -/
theorem placement_invariant {L : Int} {N : Nat} {st : Game} (h : Reachable L N st) :
    st.pieces.map (fun pc => pc.correctPosition) = List.range (N * N)
    ∧ st.puzzleGrid.length = N * N
    ∧ (st.piecesGrid ++ placedPieces st).Perm (List.range (N * N))
    ∧ ∀ (k : Nat) (z : DropZone), st.puzzleGrid[k]? = some z → z.children.length ≤ 1 := by
  have hinv := (reachable_inv h).1
  refine ⟨?_, hinv.grid_length, ?_, ?_⟩
  · apply List.ext_getElem?
    intro i
    by_cases hi : i < N * N
    · obtain ⟨pc, hpc, hpcc⟩ := hinv.getElem?_pieces hi
      simp [List.getElem?_map, hpc, hpcc, List.getElem?_range hi]
    · have h1 : st.pieces.length ≤ i := by rw [hinv.pieces_length]; omega
      have h2 : (List.range (N * N)).length ≤ i := by simp; omega
      simp [List.getElem?_map, List.getElem?_eq_none h1, List.getElem?_eq_none h2]
  · rw [List.perm_iff_count]
    intro x
    rw [List.count_append, hinv.occurs_once x, count_range]
  · intro k z hz
    exact hinv.zone_single k z.children (getElem?_zoneChildren_eq_some.mpr ⟨z, hz, rfl⟩)

/-- C3, at a concrete input: the session after two drops on drop zone 2. -/
theorem placement_invariant_witness :
    Reachable 1 3 oneWrongSession
    ∧ oneWrongSession.pieces.map (fun pc => pc.correctPosition) = List.range (3 * 3)
    ∧ oneWrongSession.puzzleGrid.length = 3 * 3
    ∧ (oneWrongSession.piecesGrid ++ placedPieces oneWrongSession).Perm (List.range (3 * 3))
    ∧ ∀ (k : Nat) (z : DropZone), oneWrongSession.puzzleGrid[k]? = some z →
        z.children.length ≤ 1 :=
  ⟨Reachable.drop _ 2 5
      (Reachable.drop _ 2 2 (Reachable.init initial (fun _ => 0) rfl rfl) (by decide))
      (by decide),
    placement_invariant
      (Reachable.drop _ 2 5
        (Reachable.drop _ 2 2 (Reachable.init initial (fun _ => 0) rfl rfl) (by decide))
        (by decide))⟩

/-- C4. In every state of a session, after an existing piece `p` is dropped on the drop zone
`s` of the grid: zone `s` has `p` as its only child, the current position recorded on `p` is
`s`, every other zone that held `p` before is empty and no other zone holds `p`, and the
placement is judged correct exactly when `p = s`. The piece may come from the pieces grid,
from another zone or from zone `s` itself. -/
theorem dropPiece_places_piece {L : Int} {N : Nat} {st : Game} (h : Reachable L N st)
    (s p : Nat) (hs : s < N * N) (hp : p < N * N) :
    (∃ z, (dropPiece st s p).1.puzzleGrid[s]? = some z ∧ z.children = [p])
    ∧ (∃ pc, (dropPiece st s p).1.pieces[p]? = some pc ∧ pc.correctPosition = p
        ∧ pc.currentPosition = s)
    ∧ (∀ (k : Nat) (z : DropZone), k ≠ s → st.puzzleGrid[k]? = some z → p ∈ z.children →
        ∃ z2, (dropPiece st s p).1.puzzleGrid[k]? = some z2 ∧ z2.children = [])
    ∧ (∀ (k : Nat) (z2 : DropZone), k ≠ s → (dropPiece st s p).1.puzzleGrid[k]? = some z2 →
        p ∉ z2.children)
    ∧ ∃ isCorrect completed,
        (dropPiece st s p).2 = DropResult.placed isCorrect completed
        ∧ (isCorrect = true ↔ p = s) := by
  have hinv := (reachable_inv h).1
  have hd := dropPiece_spec hinv hs hp
  have hother : ∀ (k : Nat) (z2 : DropZone), k ≠ s →
      (dropPiece st s p).1.puzzleGrid[k]? = some z2 → p ∉ z2.children := by
    intro k z2 hk hz2
    exact (hd.2.2.2.2.2 k z2.children hk
      (getElem?_zoneChildren_eq_some.mpr ⟨z2, hz2, rfl⟩)).1
  refine ⟨getElem?_zoneChildren_eq_some.mp hd.2.2.1, ⟨_, hd.2.2.2.1, rfl, rfl⟩, ?_, hother,
    ⟨_, _, hd.1, by simp⟩⟩
  intro k z hk hz hpz
  have hklt : k < N * N :=
    hinv.lt_of_getElem?_zone (getElem?_zoneChildren_eq_some.mpr ⟨z, hz, rfl⟩)
  obtain ⟨l2, hl2⟩ := hd.2.1.getElem?_zone hklt
  obtain ⟨z2, hz2, hz2c⟩ := getElem?_zoneChildren_eq_some.mp hl2
  refine ⟨z2, hz2, ?_⟩
  obtain ⟨hnot, l, hl, hsub⟩ := hd.2.2.2.2.2 k l2 hk hl2
  have hzl : z.children = l := by
    have := getElem?_zoneChildren_eq_some.mpr ⟨z, hz, rfl⟩
    rw [hl] at this
    exact (Option.some.inj this).symm
  have hlen := hinv.zone_single k l hl
  rw [hz2c]
  cases hl2c : l2 with
  | nil => rfl
  | cons y rest =>
    exfalso
    have hy : y ∈ l := hsub y (by simp [hl2c])
    have hpl : p ∈ l := hzl ▸ hpz
    cases hlc : l with
    | nil => simp [hlc] at hy
    | cons a tl =>
      rw [hlc] at hlen hy hpl
      have htl : tl = [] := by simpa using hlen
      subst htl
      simp at hy hpl
      apply hnot
      rw [hl2c, hpl, ← hy]
      simp

/-- C4, at a concrete input: piece 5, which sits on drop zone 2, is dropped on drop
zone 0. -/
theorem dropPiece_places_piece_witness :
    Reachable 1 3 oneWrongSession
    ∧ (∃ z, (dropPiece oneWrongSession 0 5).1.puzzleGrid[0]? = some z ∧ z.children = [5])
    ∧ (∃ pc, (dropPiece oneWrongSession 0 5).1.pieces[5]? = some pc ∧ pc.correctPosition = 5
        ∧ pc.currentPosition = 0)
    ∧ (∀ (k : Nat) (z : DropZone), k ≠ 0 → oneWrongSession.puzzleGrid[k]? = some z →
        5 ∈ z.children →
        ∃ z2, (dropPiece oneWrongSession 0 5).1.puzzleGrid[k]? = some z2 ∧ z2.children = [])
    ∧ (∀ (k : Nat) (z2 : DropZone), k ≠ 0 →
        (dropPiece oneWrongSession 0 5).1.puzzleGrid[k]? = some z2 → 5 ∉ z2.children)
    ∧ ∃ isCorrect completed,
        (dropPiece oneWrongSession 0 5).2 = DropResult.placed isCorrect completed
        ∧ (isCorrect = true ↔ 5 = 0) :=
  ⟨Reachable.drop _ 2 5
      (Reachable.drop _ 2 2 (Reachable.init initial (fun _ => 0) rfl rfl) (by decide))
      (by decide),
    dropPiece_places_piece
      (Reachable.drop _ 2 5
        (Reachable.drop _ 2 2 (Reachable.init initial (fun _ => 0) rfl rfl) (by decide))
        (by decide))
      0 5 (by decide) (by decide)⟩

/-- The state after a consumed hint. -/
theorem showHint_cases (st : Game) (r : Nat) :
    showHint st r = (st, HintResult.exhausted)
    ∨ showHint st r = (st, HintResult.nothing)
    ∨ ∃ pc ∈ st.pieces, pc.correctPosition ≠ pc.currentPosition ∧ st.hintsUsed < 3
        ∧ (showHint st r
            = ({ st with hintsUsed := st.hintsUsed + 1, score := max 0 (st.score - 100) },
                HintResult.highlighted pc.correctPosition)
          ∨ showHint st r = (st, HintResult.typeError)) := by
  unfold showHint
  split
  · exact Or.inl rfl
  · next hh =>
    dsimp only
    split
    · exact Or.inr (Or.inl rfl)
    · split
      · exact Or.inr (Or.inl rfl)
      · next pc hpc =>
        have hmem := List.getElem?_mem hpc
        rw [List.mem_filter] at hmem
        refine Or.inr (Or.inr ⟨pc, hmem.1, by simpa using hmem.2, by omega, ?_⟩)
        split
        · exact Or.inl rfl
        · exact Or.inr rfl

/-- With budget left and a piece whose two data attributes differ, a hint is consumed. -/
theorem showHint_consumes {N : Nat} {st : Game} (h : Inv N st) (hh : st.hintsUsed < 3)
    (hw : ∃ pc ∈ st.pieces, pc.correctPosition ≠ pc.currentPosition) (r : Nat) :
    ∃ pos, showHint st r
      = ({ st with hintsUsed := st.hintsUsed + 1, score := max 0 (st.score - 100) },
          HintResult.highlighted pos) := by
  obtain ⟨pc0, hpc0, hne0⟩ := hw
  have hmem0 : pc0 ∈ st.pieces.filter (fun pc => pc.correctPosition != pc.currentPosition) :=
    List.mem_filter.mpr ⟨hpc0, by simpa using hne0⟩
  have hpos : 0 < (st.pieces.filter
      (fun pc => pc.correctPosition != pc.currentPosition)).length :=
    List.length_pos_of_mem hmem0
  have hidx := Nat.mod_lt r hpos
  rcases showHint_cases st r with hc | hc | ⟨pc, hpc, _, _, hc | hc⟩
  · exfalso
    unfold showHint at hc
    rw [if_neg (by omega)] at hc
    dsimp only at hc
    rw [if_neg (by omega), List.getElem?_eq_getElem hidx] at hc
    dsimp only at hc
    split at hc <;> simp at hc
  · exfalso
    unfold showHint at hc
    rw [if_neg (by omega)] at hc
    dsimp only at hc
    rw [if_neg (by omega), List.getElem?_eq_getElem hidx] at hc
    dsimp only at hc
    split at hc <;> simp at hc
  · exact ⟨_, hc⟩
  · exfalso
    unfold showHint at hc
    rw [if_neg (by omega)] at hc
    dsimp only at hc
    rw [if_neg (by omega), List.getElem?_eq_getElem hidx] at hc
    dsimp only at hc
    have hm : (st.pieces.filter
        (fun pc => pc.correctPosition != pc.currentPosition))[r % (st.pieces.filter
        (fun pc => pc.correctPosition != pc.currentPosition)).length] ∈ st.pieces :=
      (List.mem_filter.mp (List.getElem_mem _)).1
    obtain ⟨i, hi⟩ := List.mem_iff_getElem?.mp hm
    have hci := h.pieces_correct i _ hi
    have hilt : i < st.pieces.length := (List.getElem?_eq_some.mp hi).1
    rw [h.pieces_length] at hilt
    rw [if_pos (by rw [hci, h.grid_length]; exact hilt)] at hc
    simp at hc

/-- A piece that sits in a drop zone other than its own has differing data attributes. -/
theorem Inv.wrong_of_misplaced {N : Nat} {st : Game} (h : Inv N st) {x k : Nat}
    {z : DropZone} (hk : k ≠ x) (hz : st.puzzleGrid[k]? = some z) (hx : x ∈ z.children) :
    ∃ pc ∈ st.pieces, pc.correctPosition ≠ pc.currentPosition := by
  have hzc := getElem?_zoneChildren_eq_some.mpr ⟨z, hz, rfl⟩
  obtain ⟨pc, hpc, hpcc⟩ := h.getElem?_pieces (h.lt_of_mem_zone hzc hx)
  have hcur := h.zone_current k _ x pc hzc hx hpc
  exact ⟨pc, List.getElem?_mem hpc, by omega⟩

/-- A piece with differing data attributes is in the pieces grid or in a drop zone other than
its own. -/
theorem Inv.misplaced_of_wrong {N : Nat} {st : Game} (h : Inv N st) {pc : Piece}
    (hpc : pc ∈ st.pieces) (hne : pc.correctPosition ≠ pc.currentPosition) :
    pc.correctPosition < N * N
    ∧ st.pieces[pc.correctPosition]? = some pc
    ∧ (pc.correctPosition ∈ st.piecesGrid
      ∨ ∃ k z, k ≠ pc.correctPosition ∧ st.puzzleGrid[k]? = some z
          ∧ pc.correctPosition ∈ z.children) := by
  obtain ⟨i, hi⟩ := List.mem_iff_getElem?.mp hpc
  have hci := h.pieces_correct i pc hi
  have hilt : i < st.pieces.length := (List.getElem?_eq_some.mp hi).1
  rw [h.pieces_length] at hilt
  subst hci
  refine ⟨hilt, hi, ?_⟩
  have hocc := h.occurs_once pc.correctPosition
  simp only [hilt, if_true] at hocc
  by_cases hg : pc.correctPosition ∈ st.piecesGrid
  · exact Or.inl hg
  · right
    have h0 : st.piecesGrid.count pc.correctPosition = 0 := List.count_eq_zero.mpr hg
    have hpl : pc.correctPosition ∈ placedPieces st := List.count_pos_iff.mp (by omega)
    obtain ⟨l, hl, hxl⟩ := List.mem_flatten.mp hpl
    obtain ⟨k, hk⟩ := List.mem_iff_getElem?.mp hl
    obtain ⟨z, hz, hzc⟩ := getElem?_zoneChildren_eq_some.mp hk
    have hcur := h.zone_current k l _ pc hk hxl hi
    exact ⟨k, z, by omega, hz, hzc ▸ hxl⟩

/-- The state right after `newGame`, in terms of the state it was called on. -/
theorem newGame_spec (prev : Game) (rand : Nat → Nat) :
    (newGame prev rand).pieces
      = (List.range (prev.gridSize * prev.gridSize)).map
          (fun i => ({ correctPosition := i, currentPosition := i } : Piece))
    ∧ (newGame prev rand).piecesGrid.Perm (List.range (prev.gridSize * prev.gridSize))
    ∧ (newGame prev rand).puzzleGrid
      = List.replicate (prev.gridSize * prev.gridSize)
          ({ children := [], filled := false } : DropZone)
    ∧ (newGame prev rand).score = calculateMaxScore prev
    ∧ (newGame prev rand).hintsUsed = 0
    ∧ (newGame prev rand).currentLevel = prev.currentLevel
    ∧ (newGame prev rand).gridSize = prev.gridSize := by
  have hs := shufflePieces_spec
    (inv_created { prev with score := calculateMaxScore prev, hintsUsed := 0 }).domTree rand
  unfold newGame createPuzzle
  exact ⟨hs.2.2.1, hs.1, hs.2.1, hs.2.2.2.1, hs.2.2.2.2.1, hs.2.2.2.2.2.1, hs.2.2.2.2.2.2⟩

/-- C5, the code at two failing inputs. In the session right after `newGame` (level 1, 3 by 3
grid) no hint has been used and all nine pieces are children of the pieces grid, yet
`showHint` returns early whatever the draw: no hint is consumed and the state is unchanged.
The same happens in the session where piece 2 was dropped on its own zone and then evicted
by piece 5, which was moved on to zone 5 afterwards: eight pieces are in the pieces grid and
no hint is given. The cause is that `createPieces` sets `data-current-position` to the
correct position and `dropPiece` leaves it as it is on eviction, so `wrongPieces` is
empty. -/
theorem showHint_after_newGame_is_noop :
    (freshSession.hintsUsed = 0
      ∧ freshSession.score = 900
      ∧ freshSession.piecesGrid = [1, 2, 3, 4, 5, 6, 7, 8, 0]
      ∧ placedPieces freshSession = []
      ∧ ∀ r, showHint freshSession r = (freshSession, HintResult.nothing))
    ∧ (evictedSession.hintsUsed = 0
      ∧ evictedSession.score = 900
      ∧ evictedSession.piecesGrid = [1, 3, 4, 6, 7, 8, 0, 2]
      ∧ placedPieces evictedSession = [5]
      ∧ ∀ r, showHint evictedSession r = (evictedSession, HintResult.nothing)) := by
  refine ⟨⟨by decide, by decide, by decide, by decide, ?_⟩,
    ⟨by decide, by decide, by decide, by decide, ?_⟩⟩
  · intro r
    have hp : freshSession.pieces.filter
        (fun pc => pc.correctPosition != pc.currentPosition) = [] := by decide
    have hh : freshSession.hintsUsed = 0 := by decide
    unfold showHint
    rw [if_neg (by omega)]
    dsimp only
    rw [hp]
    rfl
  · intro r
    have hp : evictedSession.pieces.filter
        (fun pc => pc.correctPosition != pc.currentPosition) = [] := by decide
    have hh : evictedSession.hintsUsed = 0 := by decide
    unfold showHint
    rw [if_neg (by omega)]
    dsimp only
    rw [hp]
    rfl

/-- C6. In every state of a session and for every draw: when `showHint` changes `hintsUsed`
or `score`, it highlights a drop zone `x` that is the correct position of a piece which at
that moment is a child of the pieces grid or of a drop zone other than `x`; and when every
drop zone `k` holds exactly piece `k`, `showHint` leaves the whole state unchanged. -/
theorem hint_targets_misplaced_piece {L : Int} {N : Nat} {st : Game}
    (h : Reachable L N st) (r : Nat) :
    ((showHint st r).1.hintsUsed ≠ st.hintsUsed ∨ (showHint st r).1.score ≠ st.score →
      ∃ x pc, (showHint st r).2 = HintResult.highlighted x
        ∧ x < N * N ∧ st.pieces[x]? = some pc ∧ pc.correctPosition = x
        ∧ (x ∈ st.piecesGrid
          ∨ ∃ k z, k ≠ x ∧ st.puzzleGrid[k]? = some z ∧ x ∈ z.children))
    ∧ ((∀ k, k < N * N → ∃ z, st.puzzleGrid[k]? = some z ∧ z.children = [k]) →
      (showHint st r).1 = st
        ∧ ((showHint st r).2 = HintResult.nothing
          ∨ (showHint st r).2 = HintResult.exhausted)) := by
  have hinv := (reachable_inv h).1
  constructor
  · intro hchg
    rcases showHint_cases st r with hc | hc | ⟨pc, hpc, hne, _, hc | hc⟩
    · rw [hc] at hchg; simp at hchg
    · rw [hc] at hchg; simp at hchg
    · obtain ⟨hlt, hget, hplace⟩ := hinv.misplaced_of_wrong hpc hne
      exact ⟨pc.correctPosition, pc, by rw [hc], hlt, hget, rfl, hplace⟩
    · rw [hc] at hchg; simp at hchg
  · intro hall
    have hnone : ¬ ∃ pc ∈ st.pieces, pc.correctPosition ≠ pc.currentPosition := by
      rintro ⟨pc, hpc, hne⟩
      obtain ⟨hlt, hget, hplace⟩ := hinv.misplaced_of_wrong hpc hne
      obtain ⟨z, hz, hzc⟩ := hall _ hlt
      have hzc2 := getElem?_zoneChildren_eq_some.mpr ⟨z, hz, hzc⟩
      have hcur := hinv.zone_current _ _ pc.correctPosition pc hzc2 (by simp) hget
      exact hne hcur.symm
    rcases showHint_cases st r with hc | hc | ⟨pc, hpc, hne, _, _⟩
    · rw [hc]; exact ⟨rfl, Or.inr rfl⟩
    · rw [hc]; exact ⟨rfl, Or.inl rfl⟩
    · exact absurd ⟨pc, hpc, hne⟩ hnone

/-- C6, at a concrete input: a hint in the session where piece 5 sits on drop zone 2. -/
theorem hint_targets_misplaced_piece_witness :
    Reachable 1 3 oneWrongSession
    ∧ ((showHint oneWrongSession 0).1.hintsUsed ≠ oneWrongSession.hintsUsed
        ∨ (showHint oneWrongSession 0).1.score ≠ oneWrongSession.score →
      ∃ x pc, (showHint oneWrongSession 0).2 = HintResult.highlighted x
        ∧ x < 3 * 3 ∧ oneWrongSession.pieces[x]? = some pc ∧ pc.correctPosition = x
        ∧ (x ∈ oneWrongSession.piecesGrid
          ∨ ∃ k z, k ≠ x ∧ oneWrongSession.puzzleGrid[k]? = some z ∧ x ∈ z.children))
    ∧ ((∀ k, k < 3 * 3 → ∃ z, oneWrongSession.puzzleGrid[k]? = some z ∧ z.children = [k]) →
      (showHint oneWrongSession 0).1 = oneWrongSession
        ∧ ((showHint oneWrongSession 0).2 = HintResult.nothing
          ∨ (showHint oneWrongSession 0).2 = HintResult.exhausted)) :=
  ⟨Reachable.drop _ 2 5
      (Reachable.drop _ 2 2 (Reachable.init initial (fun _ => 0) rfl rfl) (by decide))
      (by decide),
    hint_targets_misplaced_piece
      (Reachable.drop _ 2 5
        (Reachable.drop _ 2 2 (Reachable.init initial (fun _ => 0) rfl rfl) (by decide))
        (by decide))
      0⟩

/-- One consumed hint, on a state with a piece in a wrong drop zone. -/
theorem showHint_step {N : Nat} {st : Game} (h : Inv N st) (hh : st.hintsUsed < 3)
    (hw : ∃ (x k : Nat) (z : DropZone), k ≠ x ∧ st.puzzleGrid[k]? = some z ∧ x ∈ z.children) (r : Nat) :
    Inv N (showHint st r).1
    ∧ (showHint st r).1.hintsUsed = st.hintsUsed + 1
    ∧ (showHint st r).1.score = max 0 (st.score - 100)
    ∧ (showHint st r).1.pieces = st.pieces
    ∧ (showHint st r).1.piecesGrid = st.piecesGrid
    ∧ (showHint st r).1.puzzleGrid = st.puzzleGrid := by
  obtain ⟨x, k, z, hk, hz, hx⟩ := hw
  obtain ⟨pos, hc⟩ := showHint_consumes h hh (h.wrong_of_misplaced hk hz hx) r
  have hv := showHint_view st r
  refine ⟨inv_showHint h r, ?_, ?_, hv.1, hv.2.1, hv.2.2.1⟩
  · rw [hc]
  · rw [hc]

/-- C7. In every state of a session with `hintsUsed = 0` and some piece in a drop zone other
than its own, three `showHint` calls in a row (no drop in between, any draws) bring
`hintsUsed` to 3 and the score to `score - 300`, or to 0 when the score was below 300; they
change no placement; and a fourth call reports exhaustion and changes nothing. -/
theorem three_hints_then_exhausted {L : Int} {N : Nat} {st : Game} (h : Reachable L N st)
    (h0 : st.hintsUsed = 0)
    (hw : ∃ (x k : Nat) (z : DropZone), k ≠ x ∧ st.puzzleGrid[k]? = some z ∧ x ∈ z.children)
    (r1 r2 r3 r4 : Nat) :
    (showHint (showHint (showHint st r1).1 r2).1 r3).1.hintsUsed = 3
    ∧ (showHint (showHint (showHint st r1).1 r2).1 r3).1.score
        = (if st.score < 300 then 0 else st.score - 300)
    ∧ (showHint (showHint (showHint st r1).1 r2).1 r3).1.pieces = st.pieces
    ∧ (showHint (showHint (showHint st r1).1 r2).1 r3).1.piecesGrid = st.piecesGrid
    ∧ (showHint (showHint (showHint st r1).1 r2).1 r3).1.puzzleGrid = st.puzzleGrid
    ∧ showHint (showHint (showHint (showHint st r1).1 r2).1 r3).1 r4
        = ((showHint (showHint (showHint st r1).1 r2).1 r3).1, HintResult.exhausted) := by
  have hinv := (reachable_inv h).1
  have e1 := showHint_step hinv (by omega) hw r1
  have hw1 : ∃ (x k : Nat) (z : DropZone), k ≠ x ∧ (showHint st r1).1.puzzleGrid[k]? = some z ∧ x ∈ z.children := by
    rw [e1.2.2.2.2.2]; exact hw
  have e2 := showHint_step e1.1 (by omega) hw1 r2
  have hw2 : ∃ (x k : Nat) (z : DropZone), k ≠ x ∧ (showHint (showHint st r1).1 r2).1.puzzleGrid[k]? = some z
      ∧ x ∈ z.children := by
    rw [e2.2.2.2.2.2]; exact hw1
  have e3 := showHint_step e2.1 (by omega) hw2 r3
  have hused : (showHint (showHint (showHint st r1).1 r2).1 r3).1.hintsUsed = 3 := by omega
  refine ⟨hused, ?_, ?_, ?_, ?_, ?_⟩
  · rw [e3.2.2.1, e2.2.2.1, e1.2.2.1]
    split <;> omega
  · rw [e3.2.2.2.1, e2.2.2.2.1, e1.2.2.2.1]
  · rw [e3.2.2.2.2.1, e2.2.2.2.2.1, e1.2.2.2.2.1]
  · rw [e3.2.2.2.2.2, e2.2.2.2.2.2, e1.2.2.2.2.2]
  · generalize (showHint (showHint (showHint st r1).1 r2).1 r3).1 = s3 at hused
    unfold showHint
    rw [if_pos (by omega)]

/-- C7, at a concrete input: four hints in the session where piece 5 sits on drop
zone 2. -/
theorem three_hints_then_exhausted_witness :
    Reachable 1 3 oneWrongSession
    ∧ oneWrongSession.hintsUsed = 0
    ∧ (∃ (x k : Nat) (z : DropZone), k ≠ x ∧ oneWrongSession.puzzleGrid[k]? = some z ∧ x ∈ z.children)
    ∧ (showHint (showHint (showHint oneWrongSession 0).1 1).1 2).1.hintsUsed = 3
    ∧ (showHint (showHint (showHint oneWrongSession 0).1 1).1 2).1.score
        = (if oneWrongSession.score < 300 then 0 else oneWrongSession.score - 300)
    ∧ (showHint (showHint (showHint oneWrongSession 0).1 1).1 2).1.pieces
        = oneWrongSession.pieces
    ∧ (showHint (showHint (showHint oneWrongSession 0).1 1).1 2).1.piecesGrid
        = oneWrongSession.piecesGrid
    ∧ (showHint (showHint (showHint oneWrongSession 0).1 1).1 2).1.puzzleGrid
        = oneWrongSession.puzzleGrid
    ∧ showHint (showHint (showHint (showHint oneWrongSession 0).1 1).1 2).1 3
        = ((showHint (showHint (showHint oneWrongSession 0).1 1).1 2).1,
            HintResult.exhausted) :=
  ⟨Reachable.drop _ 2 5
      (Reachable.drop _ 2 2 (Reachable.init initial (fun _ => 0) rfl rfl) (by decide))
      (by decide),
    by decide,
    ⟨5, 2, { children := [5], filled := true }, by decide, by decide, by decide⟩,
    three_hints_then_exhausted
      (Reachable.drop _ 2 5
        (Reachable.drop _ 2 2 (Reachable.init initial (fun _ => 0) rfl rfl) (by decide))
        (by decide))
      (by decide)
      ⟨5, 2, { children := [5], filled := true }, by decide, by decide, by decide⟩
      0 1 2 3⟩

/-- C8. Score invariant: in every state of a session with level `L ≥ 0` on the `N` by `N`
grid, `score = max 0 (N * N * 100 * L - 100 * hintsUsed)`. Hence the score is never negative;
`dropPiece` and `shufflePieces` leave it as it is; and `showHint` either changes neither
`hintsUsed` nor `score`, or adds one to `hintsUsed` and lowers `score` to
`max 0 (score - 100)`, so the score never goes up. -/
theorem score_invariant {L : Int} {N : Nat} {st : Game} (h : Reachable L N st)
    (hL : 0 ≤ L) :
    st.score = max 0 ((N : Int) * (N : Int) * 100 * L - 100 * (st.hintsUsed : Int))
    ∧ 0 ≤ st.score
    ∧ (∀ s pieceId, (dropPiece st s pieceId).1.score = st.score
        ∧ (dropPiece st s pieceId).1.hintsUsed = st.hintsUsed)
    ∧ (∀ rand, (shufflePieces st rand).score = st.score
        ∧ (shufflePieces st rand).hintsUsed = st.hintsUsed)
    ∧ (∀ r, (showHint st r).1.score ≤ st.score
        ∧ ((showHint st r).1.hintsUsed = st.hintsUsed ∧ (showHint st r).1.score = st.score
          ∨ (showHint st r).1.hintsUsed = st.hintsUsed + 1
            ∧ (showHint st r).1.score = max 0 (st.score - 100))) := by
  have hformula : st.score
      = max 0 ((N : Int) * (N : Int) * 100 * L - 100 * (st.hintsUsed : Int)) := by
    induction h with
    | init prev rand hL2 hN =>
      have hs := newGame_spec prev rand
      rw [hs.2.2.2.1, hs.2.2.2.2.1]
      simp only [calculateMaxScore, hL2, hN]
      have hnn : (0 : Int) ≤ (N : Int) * (N : Int) * 100 * L :=
        mul_nonneg (mul_nonneg (mul_nonneg (Int.natCast_nonneg N) (Int.natCast_nonneg N))
          (by norm_num)) hL
      generalize (N : Int) * (N : Int) * 100 * L = M at hnn ⊢
      simp only [Nat.cast_zero]
      omega
    | drop st s pieceId _ hs ih =>
      have hf := dropPiece_frame st s pieceId
      rw [hf.1, hf.2.1]; exact ih
    | shuffle st rand hr ih =>
      have hs := shufflePieces_spec (reachable_inv hr).1.domTree rand
      rw [hs.2.2.2.1, hs.2.2.2.2.1]; exact ih
    | hint st r _ ih =>
      generalize (N : Int) * (N : Int) * 100 * L = M at ih ⊢
      rcases showHint_cases st r with hc | hc | ⟨pc, _, _, _, hc | hc⟩
      · rw [hc]; exact ih
      · rw [hc]; exact ih
      · rw [hc]
        simp only [Nat.cast_add, Nat.cast_one]
        omega
      · rw [hc]; exact ih
  have hnonneg : 0 ≤ st.score := by rw [hformula]; exact le_max_left _ _
  refine ⟨hformula, hnonneg, ?_, ?_, ?_⟩
  · intro s pieceId
    exact ⟨(dropPiece_frame st s pieceId).1, (dropPiece_frame st s pieceId).2.1⟩
  · intro rand
    have hs := shufflePieces_spec (reachable_inv h).1.domTree rand
    exact ⟨hs.2.2.2.1, hs.2.2.2.2.1⟩
  · intro r
    rcases showHint_cases st r with hc | hc | ⟨pc, _, _, _, hc | hc⟩
    · rw [hc]; exact ⟨le_refl _, Or.inl ⟨rfl, rfl⟩⟩
    · rw [hc]; exact ⟨le_refl _, Or.inl ⟨rfl, rfl⟩⟩
    · rw [hc]
      refine ⟨?_, Or.inr ⟨rfl, rfl⟩⟩
      show max 0 (st.score - 100) ≤ st.score
      omega
    · rw [hc]; exact ⟨le_refl _, Or.inl ⟨rfl, rfl⟩⟩

/-- C8, at a concrete input: the session where piece 5 sits on drop zone 2, after one
hint. -/
theorem score_invariant_witness :
    Reachable 1 3 (showHint oneWrongSession 0).1
    ∧ (0 : Int) ≤ 1
    ∧ (showHint oneWrongSession 0).1.score = 800
    ∧ (showHint oneWrongSession 0).1.score
      = max 0 (((3 : Nat) : Int) * ((3 : Nat) : Int) * 100 * 1
          - 100 * ((showHint oneWrongSession 0).1.hintsUsed : Int)) :=
  ⟨Reachable.hint _ 0
      (Reachable.drop _ 2 5
        (Reachable.drop _ 2 2 (Reachable.init initial (fun _ => 0) rfl rfl) (by decide))
        (by decide)),
    by decide, by decide,
    (score_invariant
      (Reachable.hint _ 0
        (Reachable.drop _ 2 5
          (Reachable.drop _ 2 2 (Reachable.init initial (fun _ => 0) rfl rfl) (by decide))
          (by decide)))
      (by decide)).1⟩

/-- C9. Whatever the earlier state was (its score, hint count, pieces and placements), the
state right after `newGame` at level `L` and grid size `N`, for any level and size and so for
`L` in 1..4 and `N` in 3..6, has exactly the pieces with correct positions `0 .. N * N - 1`,
each once; all of them are children of the pieces grid, each once; there are exactly `N * N`
drop zones, all without children; `score = N * N * 100 * L` and `hintsUsed = 0`. -/
theorem newGame_fresh_state (prev : Game) (rand : Nat → Nat) :
    (newGame prev rand).pieces.map (fun pc => pc.correctPosition)
      = List.range (prev.gridSize * prev.gridSize)
    ∧ (newGame prev rand).pieces.length = prev.gridSize * prev.gridSize
    ∧ (newGame prev rand).piecesGrid.Perm (List.range (prev.gridSize * prev.gridSize))
    ∧ (newGame prev rand).puzzleGrid.length = prev.gridSize * prev.gridSize
    ∧ (∀ z ∈ (newGame prev rand).puzzleGrid, z.children = [])
    ∧ placedPieces (newGame prev rand) = []
    ∧ (newGame prev rand).score
      = (prev.gridSize : Int) * (prev.gridSize : Int) * 100 * prev.currentLevel
    ∧ (newGame prev rand).hintsUsed = 0
    ∧ (newGame prev rand).gridSize = prev.gridSize
    ∧ (newGame prev rand).currentLevel = prev.currentLevel := by
  have hs := newGame_spec prev rand
  refine ⟨?_, ?_, hs.2.1, ?_, ?_, ?_, hs.2.2.2.1, hs.2.2.2.2.1, hs.2.2.2.2.2.2,
    hs.2.2.2.2.2.1⟩
  · rw [hs.1, List.map_map]
    exact List.map_id _
  · rw [hs.1]; simp
  · rw [hs.2.2.1]; simp
  · intro z hz
    rw [hs.2.2.1] at hz
    rw [(List.mem_replicate.mp hz).2]
  · unfold placedPieces
    rw [hs.2.2.1, zoneChildren_replicate, flatten_replicate_nil]

/-- C10. On every state whose DOM is a tree and for every sequence of draws, `shufflePieces`
with its deferred moves applied leaves in the pieces grid the same pieces as before, each
once, possibly in another order, and changes neither the drop zones and their children, nor
the data of any piece, nor `score`, nor `hintsUsed`. -/
theorem shufflePieces_permutes_pool (st : Game) (rand : Nat → Nat) (hd : DomTree st) :
    (shufflePieces st rand).piecesGrid.Perm st.piecesGrid
    ∧ (shufflePieces st rand).piecesGrid.Nodup
    ∧ (shufflePieces st rand).puzzleGrid = st.puzzleGrid
    ∧ (shufflePieces st rand).pieces = st.pieces
    ∧ (shufflePieces st rand).score = st.score
    ∧ (shufflePieces st rand).hintsUsed = st.hintsUsed := by
  have hs := shufflePieces_spec hd rand
  have hnd : st.piecesGrid.Nodup := (List.nodup_append.mp hd).1
  exact ⟨hs.1, hs.1.nodup_iff.mpr hnd, hs.2.1, hs.2.2.1, hs.2.2.2.1, hs.2.2.2.2.1⟩

/-- C10, at a concrete input: a shuffle with draws `i ↦ 3 * i + 1` in the session where
piece 5 sits on drop zone 2. -/
theorem shufflePieces_permutes_pool_witness :
    DomTree oneWrongSession
    ∧ (shufflePieces oneWrongSession (fun i => 3 * i + 1)).piecesGrid = [2, 0, 8, 7, 6, 4, 3, 1]
    ∧ (shufflePieces oneWrongSession (fun i => 3 * i + 1)).piecesGrid.Perm
        oneWrongSession.piecesGrid
    ∧ (shufflePieces oneWrongSession (fun i => 3 * i + 1)).piecesGrid.Nodup
    ∧ (shufflePieces oneWrongSession (fun i => 3 * i + 1)).puzzleGrid
        = oneWrongSession.puzzleGrid
    ∧ (shufflePieces oneWrongSession (fun i => 3 * i + 1)).pieces = oneWrongSession.pieces
    ∧ (shufflePieces oneWrongSession (fun i => 3 * i + 1)).score = oneWrongSession.score
    ∧ (shufflePieces oneWrongSession (fun i => 3 * i + 1)).hintsUsed
        = oneWrongSession.hintsUsed :=
  ⟨by unfold DomTree; decide, by decide,
    shufflePieces_permutes_pool oneWrongSession (fun i => 3 * i + 1)
      (by unfold DomTree; decide)⟩

/-! ## The solved session -/

theorem reachable_solveFrom {L : Int} {N : Nat} {st : Game} (h : Reachable L N st) :
    ∀ k, k ≤ N * N → Reachable L N (solveFrom st k) := by
  intro k
  induction k with
  | zero => intro _; exact h
  | succ k ih =>
    intro hk
    exact Reachable.drop _ k k (ih (by omega)) (by omega)

/-- The solved session is a state of a session; each of its drop zones holds its own piece,
the completion check succeeds on it and a hint request changes nothing. -/
theorem solvedSession_complete :
    Reachable 1 3 solvedSession
    ∧ zoneChildren solvedSession.puzzleGrid = [[0], [1], [2], [3], [4], [5], [6], [7], [8]]
    ∧ solvedSession.piecesGrid = []
    ∧ checkCompletion solvedSession = true
    ∧ (dropPiece (solveFrom freshSession 8) 8 8).2 = DropResult.placed true true
    ∧ (dropPiece (solveFrom freshSession 7) 7 7).2 = DropResult.placed true false
    ∧ showHint solvedSession 0 = (solvedSession, HintResult.nothing) :=
  ⟨reachable_solveFrom (Reachable.init initial (fun _ => 0) rfl rfl) 9 (by decide),
    by decide, by decide, by decide, by decide, by decide, by decide⟩

/-! ## The order produced by `shufflePieces` -/

theorem foldl_appendToPiecesGrid_getLast (ys : List Nat) (y : Nat) (st : Game) :
    ((ys ++ [y]).foldl appendToPiecesGrid st).piecesGrid.getLast? = some y := by
  rw [List.foldl_append]
  simp only [List.foldl_cons, List.foldl_nil, appendToPiecesGrid]
  exact List.getLast?_concat _

theorem shuffleLoop_getLast (pieces : List Nat) (rand : Nat → Nat) :
    ∀ n, 1 ≤ n → n + 1 ≤ pieces.length →
      ∃ ys y, shuffleLoop pieces rand n = ys ++ [y] ∧ pieces[rand 1 % 2]? = some y := by
  intro n
  induction n with
  | zero => intro h; omega
  | succ k ih =>
    intro _ hlen
    have hidx : rand (k + 1) % (k + 2) < pieces.length :=
      lt_of_lt_of_le (Nat.mod_lt _ (by omega)) (by omega)
    have hget := List.getElem?_eq_getElem hidx
    unfold shuffleLoop
    rw [hget]
    by_cases hk : k = 0
    · subst hk
      exact ⟨[], _, by simp [shuffleLoop], hget⟩
    · obtain ⟨ys, y, hys, hy⟩ := ih (by omega) (by omega)
      exact ⟨pieces[rand (k + 1) % (k + 2)] :: ys, y, by simp [hys], hy⟩

/-- Whatever the draws, the last piece after a shuffle is the first or the second piece of
the order before it: the loop ends with the move of `pieces[j]` for `j` in `{0, 1}`. -/
theorem shufflePieces_getLast (st : Game) (rand : Nat → Nat)
    (h : 2 ≤ st.piecesGrid.length) :
    (shufflePieces st rand).piecesGrid.getLast? = st.piecesGrid[rand 1 % 2]? := by
  obtain ⟨ys, y, hys, hy⟩ :=
    shuffleLoop_getLast st.piecesGrid rand (st.piecesGrid.length - 1) (by omega) (by omega)
  unfold shufflePieces
  rw [hys, foldl_appendToPiecesGrid_getLast, hy]

/-- C11, the code at the failing input. With pieces 6, 7, 8 left in the pieces grid, the six
draw sequences (`j2` in `0..2` at loop index 2, `j1` in `0..1` at loop index 1) give only four
of the six orders, two of them twice; no draws at all give back the order `[6, 7, 8]` or the
order `[7, 6, 8]`. In the fresh session of nine pieces the last piece after a shuffle is
always the first or the second piece of the old order, so the old order never results. The
loop draws `j` as a Fisher-Yates shuffle does, but never exchanges `pieces[i]` and
`pieces[j]`. -/
theorem shufflePieces_not_uniform :
    threeLeftSession.piecesGrid = [6, 7, 8]
    ∧ (List.range 3).map (fun j2 => (List.range 2).map (fun j1 =>
          (shufflePieces threeLeftSession (fun i => if i = 2 then j2 else j1)).piecesGrid))
        = [[[7, 8, 6], [8, 6, 7]], [[8, 7, 6], [6, 8, 7]], [[7, 8, 6], [6, 8, 7]]]
    ∧ (∀ rand, (shufflePieces threeLeftSession rand).piecesGrid ≠ [6, 7, 8])
    ∧ (∀ rand, (shufflePieces threeLeftSession rand).piecesGrid ≠ [7, 6, 8])
    ∧ freshSession.piecesGrid = [1, 2, 3, 4, 5, 6, 7, 8, 0]
    ∧ (∀ rand, (shufflePieces freshSession rand).piecesGrid.getLast? = some 1
        ∨ (shufflePieces freshSession rand).piecesGrid.getLast? = some 2)
    ∧ (∀ rand, (shufflePieces freshSession rand).piecesGrid ≠ freshSession.piecesGrid) := by
  have h3 : threeLeftSession.piecesGrid = [6, 7, 8] := by decide
  have h9 : freshSession.piecesGrid = [1, 2, 3, 4, 5, 6, 7, 8, 0] := by decide
  have hlast3 : ∀ rand, (shufflePieces threeLeftSession rand).piecesGrid.getLast? = some 6
      ∨ (shufflePieces threeLeftSession rand).piecesGrid.getLast? = some 7 := by
    intro rand
    have hl := shufflePieces_getLast threeLeftSession rand (by rw [h3]; decide)
    rw [h3] at hl
    have hlt : rand 1 % 2 < 2 := Nat.mod_lt _ (by decide)
    generalize rand 1 % 2 = j at hl hlt
    interval_cases j
    · exact Or.inl hl
    · exact Or.inr hl
  have hlast9 : ∀ rand, (shufflePieces freshSession rand).piecesGrid.getLast? = some 1
      ∨ (shufflePieces freshSession rand).piecesGrid.getLast? = some 2 := by
    intro rand
    have hl := shufflePieces_getLast freshSession rand (by rw [h9]; decide)
    rw [h9] at hl
    have hlt : rand 1 % 2 < 2 := Nat.mod_lt _ (by decide)
    generalize rand 1 % 2 = j at hl hlt
    interval_cases j
    · exact Or.inl hl
    · exact Or.inr hl
  refine ⟨h3, by decide, ?_, ?_, h9, hlast9, ?_⟩
  · intro rand heq
    rcases hlast3 rand with hl | hl <;> rw [heq] at hl <;> simp at hl
  · intro rand heq
    rcases hlast3 rand with hl | hl <;> rw [heq] at hl <;> simp at hl
  · intro rand heq
    rcases hlast9 rand with hl | hl <;> rw [heq, h9] at hl <;> simp at hl

/-! ## `nextLevel` -/

theorem nextLevel_of_level {st : Game} (rand : Nat → Nat) {n : Nat}
    (hl : st.currentLevel = (n : Int) + 1) (hn : n < 3) :
    nextLevel st rand
      = (newGame { st with currentLevel := (n : Int) + 2, gridSize := n + 4 } rand,
          NextLevelResult.started) := by
  unfold nextLevel setLevel
  rw [if_pos (by omega)]
  interval_cases n <;> simp [hl]

/-- C13. At a current level `L` with `1 ≤ L ≤ 3`, `nextLevel` starts a session through
`newGame` at level `L + 1` and grid size `L + 3`: the pieces are those with correct positions
`0 .. size * size - 1`, all in the pieces grid, every drop zone is empty,
`score = (L + 3) * (L + 3) * 100 * (L + 1)` and `hintsUsed = 0`. At level 4 `nextLevel`
starts nothing and returns the state as it was. The first level of the table, level 1 with
size 3, is the one the object is constructed with. -/
theorem nextLevel_advances (st : Game) (rand : Nat → Nat) :
    (1 ≤ st.currentLevel ∧ st.currentLevel ≤ 3 →
      (nextLevel st rand).2 = NextLevelResult.started
      ∧ (nextLevel st rand).1.currentLevel = st.currentLevel + 1
      ∧ ((nextLevel st rand).1.gridSize : Int) = st.currentLevel + 3
      ∧ (nextLevel st rand).1.score
          = (st.currentLevel + 3) * (st.currentLevel + 3) * 100 * (st.currentLevel + 1)
      ∧ (nextLevel st rand).1.hintsUsed = 0
      ∧ (nextLevel st rand).1.pieces.map (fun pc => pc.correctPosition)
          = List.range ((nextLevel st rand).1.gridSize * (nextLevel st rand).1.gridSize)
      ∧ (nextLevel st rand).1.piecesGrid.Perm
          (List.range ((nextLevel st rand).1.gridSize * (nextLevel st rand).1.gridSize))
      ∧ (nextLevel st rand).1.puzzleGrid.length
          = (nextLevel st rand).1.gridSize * (nextLevel st rand).1.gridSize
      ∧ (∀ z ∈ (nextLevel st rand).1.puzzleGrid, z.children = [])
      ∧ Reachable (st.currentLevel + 1) (nextLevel st rand).1.gridSize (nextLevel st rand).1)
    ∧ (st.currentLevel = 4 → nextLevel st rand = (st, NextLevelResult.allLevelsComplete))
    ∧ initial.currentLevel = 1 ∧ initial.gridSize = 3 := by
  refine ⟨?_, ?_, rfl, rfl⟩
  · rintro ⟨h1, h3⟩
    obtain ⟨n, hn⟩ : ∃ n : Nat, st.currentLevel = (n : Int) + 1 :=
      ⟨(st.currentLevel - 1).toNat, by omega⟩
    have hn3 : n < 3 := by omega
    have hnl := nextLevel_of_level rand hn hn3
    have hf := newGame_fresh_state
      { st with currentLevel := (n : Int) + 2, gridSize := n + 4 } rand
    have hr : Reachable ((n : Int) + 2) (n + 4)
        (newGame { st with currentLevel := (n : Int) + 2, gridSize := n + 4 } rand) :=
      Reachable.init _ rand rfl rfl
    have hlevel : st.currentLevel + 1 = (n : Int) + 2 := by omega
    rw [hnl, hlevel]
    obtain ⟨hf1, _, hf3, hf4, hf5, _, hf7, hf8, hf9, hf10⟩ := hf
    simp only at hf1 hf3 hf4 hf5 hf7 hf8 hf9 hf10 ⊢
    rw [hf9]
    refine ⟨trivial, hf10, ?_, ?_, hf8, hf1, hf3, hf4, hf5, hr⟩
    · rw [hn]; push_cast; ring
    · rw [hf7, hn]; push_cast; ring
  · intro h4
    unfold nextLevel
    rw [if_neg (by omega)]

/-- C13, at concrete inputs: `nextLevel` in the fresh session at level 1 and in a session at
level 4. -/
theorem nextLevel_advances_witness :
    ((nextLevel freshSession (fun _ => 0)).2 = NextLevelResult.started
      ∧ (nextLevel freshSession (fun _ => 0)).1.currentLevel = 2
      ∧ (nextLevel freshSession (fun _ => 0)).1.gridSize = 4
      ∧ (nextLevel freshSession (fun _ => 0)).1.score = 3200
      ∧ (nextLevel freshSession (fun _ => 0)).1.hintsUsed = 0)
    ∧ lastLevelSession.currentLevel = 4
    ∧ lastLevelSession.gridSize = 6
    ∧ nextLevel lastLevelSession (fun _ => 0)
        = (lastLevelSession, NextLevelResult.allLevelsComplete) := by
  have h1 := (nextLevel_advances freshSession (fun _ => 0)).1 ⟨by decide, by decide⟩
  have h4 := (nextLevel_advances lastLevelSession (fun _ => 0)).2.1 (by decide)
  exact ⟨⟨h1.1, by decide, by decide, by decide, h1.2.2.2.2.1⟩, by decide, by decide, h4⟩

/-! ## The drop zones after the blocks of `dropPiece` -/

theorem Inv.zone_unique {N : Nat} {st : Game} (h : Inv N st) {k1 k2 x : Nat}
    {z1 z2 : DropZone} (h1 : st.puzzleGrid[k1]? = some z1) (hx1 : x ∈ z1.children)
    (h2 : st.puzzleGrid[k2]? = some z2) (hx2 : x ∈ z2.children) : k1 = k2 := by
  have hz1 := getElem?_zoneChildren_eq_some.mpr ⟨z1, h1, rfl⟩
  have hz2 := getElem?_zoneChildren_eq_some.mpr ⟨z2, h2, rfl⟩
  obtain ⟨pc, hpc, _⟩ := h.getElem?_pieces (h.lt_of_mem_zone hz1 hx1)
  have e1 := h.zone_current k1 _ x pc hz1 hx1 hpc
  have e2 := h.zone_current k2 _ x pc hz2 hx2 hpc
  omega

/-- The drop zones and the pieces grid after the first block of `dropPiece`: the target zone
keeps its class list and has no child, its former children are at the end of the pieces
grid, and the other zones are as before. -/
theorem evictExisting_zones {N : Nat} {st : Game} {s : Nat} (h : Inv N st)
    (hs : s < N * N) :
    ∃ z, st.puzzleGrid[s]? = some z
      ∧ (evictExisting st s).puzzleGrid[s]? = some { z with children := [] }
      ∧ (∀ k, k ≠ s → (evictExisting st s).puzzleGrid[k]? = st.puzzleGrid[k]?)
      ∧ (evictExisting st s).piecesGrid = st.piecesGrid ++ z.children := by
  have hlen : s < st.puzzleGrid.length := by rw [h.grid_length]; exact hs
  obtain ⟨z, hz⟩ : ∃ z, st.puzzleGrid[s]? = some z := ⟨_, List.getElem?_eq_getElem hlen⟩
  have hzc : (zoneChildren st.puzzleGrid)[s]? = some z.children :=
    getElem?_zoneChildren_eq_some.mpr ⟨z, hz, rfl⟩
  have hsingle := h.zone_single s _ hzc
  refine ⟨z, hz, ?_⟩
  cases hch : z.children with
  | nil =>
    have he : evictExisting st s = st := by simp [evictExisting, hz, hch]
    rw [he]
    refine ⟨?_, fun _ _ => rfl, by simp⟩
    rw [hz, ← hch]
  | cons q rest =>
    have hrest : rest = [] := by
      rw [hch] at hsingle
      simpa using hsingle
    subst hrest
    have he : evictExisting st s = appendToPiecesGrid st q := by
      simp [evictExisting, hz, hch]
    have hqz : q ∈ z.children := by simp [hch]
    rw [he]
    refine ⟨?_, ?_, ?_⟩
    · simp [appendToPiecesGrid, List.getElem?_map, hz, detach, hch, removeNode]
    · intro k hk
      simp only [appendToPiecesGrid, List.getElem?_map]
      cases hzk : st.puzzleGrid[k]? with
      | none => rfl
      | some zk =>
        have hq : q ∉ zk.children := fun hmem => hk (h.zone_unique hzk hmem hz hqz)
        simp [detach, removeNode_eq_self hq]
    · have hocc := h.occurs_once q
      have hpl : 0 < (placedPieces st).count q :=
        List.count_pos_iff.mpr (List.mem_flatten.mpr ⟨_, List.getElem?_mem hzc, hqz⟩)
      have hq0 : st.piecesGrid.count q = 0 := by
        split at hocc <;> omega
      have hnot : q ∉ st.piecesGrid := List.count_eq_zero.mp hq0
      simp [appendToPiecesGrid, removeNode_eq_self hnot]

theorem parentZone_some {st : Game} {x k : Nat} (h : parentZone st x = some k) :
    ∃ z, st.puzzleGrid[k]? = some z ∧ x ∈ z.children := by
  unfold parentZone at h
  dsimp only at h
  split at h
  · next hlt =>
    cases h
    refine ⟨_, List.getElem?_eq_getElem hlt, ?_⟩
    have := List.findIdx_getElem (w := hlt)
    simpa using this
  · cases h

theorem parentZone_none {st : Game} {x : Nat} (h : parentZone st x = none) :
    ∀ (k : Nat) (z : DropZone), st.puzzleGrid[k]? = some z → x ∉ z.children := by
  unfold parentZone at h
  dsimp only at h
  split at h
  · cases h
  · next hge =>
    intro k z hz hx
    apply hge
    exact List.findIdx_lt_length_of_exists ⟨z, List.getElem?_mem hz, by simpa using hx⟩

theorem getElem?_clearParentFilled (st : Game) (p k : Nat) :
    (clearParentFilled st p).puzzleGrid[k]?
      = if parentZone st p = some k
        then (st.puzzleGrid[k]?).map (fun z => { z with filled := false })
        else st.puzzleGrid[k]? := by
  unfold clearParentFilled
  cases hp : parentZone st p with
  | none => simp
  | some k0 =>
    simp only [getElem?_modifyAt, Option.some.injEq]
    by_cases hk : k = k0
    · subst hk; simp
    · have : ¬ k0 = k := fun e => hk e.symm
      simp [hk, this]

theorem getElem?_placePiece (st : Game) (s p k : Nat) :
    (placePiece st s p).puzzleGrid[k]?
      = if k = s
        then (st.puzzleGrid[k]?).map
          (fun z => { children := removeNode p z.children ++ [p], filled := true })
        else (st.puzzleGrid[k]?).map (detach p) := by
  simp only [placePiece, appendToDropZone, getElem?_modifyAt, List.getElem?_map]
  by_cases hk : k = s
  · simp only [hk, if_true]
    cases st.puzzleGrid[s]? <;> simp [detach]
  · simp [hk]

/-! ## The class `filled` -/

/-- A drop of an existing piece on a zone of the grid keeps the class `filled` on exactly the
zones that have a child. -/
theorem filledInv_dropPiece {N : Nat} {st : Game} {s p : Nat} (h : Inv N st)
    (hf : FilledInv st) (hs : s < N * N) (hp : p < N * N) :
    FilledInv (dropPiece st s p).1 := by
  rw [dropPiece_of_lt h s hp]
  obtain ⟨z, hz, hzs, hzk, _⟩ := evictExisting_zones h hs
  have hinv1 := (evictExisting_spec h hs).1
  intro k zf hzf
  simp only at hzf
  rw [getElem?_placePiece, getElem?_clearParentFilled] at hzf
  by_cases hk : k = s
  · subst hk
    rw [if_pos rfl, hzs] at hzf
    by_cases hpar : parentZone (evictExisting st k) p = some k
    · simp only [hpar, if_true, Option.map_some', Option.some.injEq] at hzf
      subst hzf
      simp
    · simp only [hpar, if_false, Option.map_some', Option.some.injEq] at hzf
      subst hzf
      simp
  · simp only [hk, if_false] at hzf
    rw [hzk k hk] at hzf
    cases hz0 : st.puzzleGrid[k]? with
    | none => simp [hz0] at hzf
    | some z0 =>
      have hz1 : (evictExisting st s).puzzleGrid[k]? = some z0 := by rw [hzk k hk, hz0]
      by_cases hpar : parentZone (evictExisting st s) p = some k
      · obtain ⟨z1, hz1b, hpz⟩ := parentZone_some hpar
        rw [hz1] at hz1b
        cases hz1b
        have hlen := h.zone_single k _ (getElem?_zoneChildren_eq_some.mpr ⟨z0, hz0, rfl⟩)
        have hch : z0.children = [p] := by
          cases hc : z0.children with
          | nil => simp [hc] at hpz
          | cons a tl =>
            rw [hc] at hlen hpz
            have htl : tl = [] := by simpa using hlen
            subst htl
            simp at hpz
            rw [hpz]
        simp only [hpar, if_true, hz0, Option.map_some', Option.some.injEq] at hzf
        subst hzf
        simp [detach, hch, removeNode]
      · have hnot : p ∉ z0.children := by
          intro hmem
          cases hpz : parentZone (evictExisting st s) p with
          | none => exact parentZone_none hpz k z0 hz1 hmem
          | some k0 =>
            obtain ⟨z2, hz2, hp2⟩ := parentZone_some hpz
            have := hinv1.zone_unique hz2 hp2 hz1 hmem
            exact hpar (by rw [hpz, this])
        simp only [hpar, if_false, hz0, Option.map_some', Option.some.injEq] at hzf
        subst hzf
        simp only [detach, removeNode_eq_self hnot]
        exact hf k z0 hz0

theorem length_filter_filled (zones : List DropZone)
    (h1 : ∀ z ∈ zones, z.children.length ≤ 1)
    (h2 : ∀ z ∈ zones, (z.filled = true ↔ z.children ≠ [])) :
    (zones.filter (fun z => z.filled)).length = (zoneChildren zones).flatten.length := by
  induction zones with
  | nil => rfl
  | cons z zs ih =>
    have ih2 := ih (fun y hy => h1 y (List.mem_cons_of_mem _ hy))
      (fun y hy => h2 y (List.mem_cons_of_mem _ hy))
    have hz1 := h1 z (List.mem_cons_self _ _)
    have hz2 := h2 z (List.mem_cons_self _ _)
    simp only [zoneChildren, List.map_cons, List.flatten_cons, List.length_append] at ih2 ⊢
    cases hfl : z.filled with
    | true =>
      have hne : z.children ≠ [] := hz2.mp hfl
      have hpos : 0 < z.children.length := List.length_pos.mpr hne
      rw [List.filter_cons_of_pos (by simpa using hfl), List.length_cons, ih2]
      omega
    | false =>
      have hnil : z.children = [] := by
        by_contra hne
        have := hz2.mpr hne
        rw [hfl] at this
        cases this
      rw [List.filter_cons_of_neg (by simp [hfl]), ih2, hnil]
      simp

theorem Inv.length_add_length {N : Nat} {st : Game} (h : Inv N st) :
    st.piecesGrid.length + (placedPieces st).length = N * N := by
  have hperm : (st.piecesGrid ++ placedPieces st).Perm (List.range (N * N)) := by
    rw [List.perm_iff_count]
    intro x
    rw [List.count_append, h.occurs_once x, count_range]
  have := hperm.length_eq
  simpa using this

/-- With the class `filled` on exactly the occupied zones, the pieces-left figure of
`updateStats` is the number of pieces in the pieces grid. -/
theorem piecesLeft_eq_length {N : Nat} {st : Game} (h : Inv N st) (hf : FilledInv st) :
    piecesLeft st = (st.piecesGrid.length : Int) := by
  have hcount : (st.puzzleGrid.filter (fun z => z.filled)).length
      = (placedPieces st).length := by
    apply length_filter_filled
    · intro z hz
      obtain ⟨k, hk⟩ := List.mem_iff_getElem?.mp hz
      exact h.zone_single k _ (getElem?_zoneChildren_eq_some.mpr ⟨z, hk, rfl⟩)
    · intro z hz
      obtain ⟨k, hk⟩ := List.mem_iff_getElem?.mp hz
      exact hf k z hk
  have hsum := h.length_add_length
  unfold piecesLeft
  simp only [hcount, h.gridSize_eq]
  have : ((N * N : Nat) : Int) = (N : Int) * (N : Int) := by push_cast; ring
  omega

theorem reachable_of_placing {L : Int} {N : Nat} {st : Game}
    (h : ReachableByPlacing L N st) : Reachable L N st := by
  induction h with
  | init prev rand hL hN => exact Reachable.init prev rand hL hN
  | drop st s p _ hs _ ih => exact Reachable.drop st s p ih hs
  | shuffle st rand _ ih => exact Reachable.shuffle st rand ih
  | hint st r _ ih => exact Reachable.hint st r ih

/-- In a session whose drops all name pieces of the session, the class `filled` is on exactly
the drop zones that have a child, and the pieces-left figure equals the number of pieces in
the pieces grid. -/
theorem filled_invariant_of_placing {L : Int} {N : Nat} {st : Game}
    (h : ReachableByPlacing L N st) :
    FilledInv st ∧ piecesLeft st = (st.piecesGrid.length : Int) := by
  have hfilled : FilledInv st := by
    induction h with
    | init prev rand hL hN =>
      intro k z hz
      rw [(newGame_spec prev rand).2.2.1, List.getElem?_replicate] at hz
      split at hz
      · cases hz; simp
      · cases hz
    | drop st s p hr hs hp ih =>
      exact filledInv_dropPiece (reachable_inv (reachable_of_placing hr)).1 ih hs hp
    | shuffle st rand hr ih =>
      intro k z hz
      rw [(shufflePieces_spec (reachable_inv (reachable_of_placing hr)).1.domTree rand).2.1]
        at hz
      exact ih k z hz
    | hint st r _ ih =>
      intro k z hz
      rw [(showHint_view st r).2.2.1] at hz
      exact ih k z hz
  exact ⟨hfilled, piecesLeft_eq_length (reachable_inv (reachable_of_placing h)).1 hfilled⟩

/-! ## A drop whose identifier matches no piece -/

/-- In every state of a session, a drop on a zone of the grid with an identifier that matches
no piece ends in the `TypeError`; score, hint count and piece data are as before, the zones
other than the target are as before, and the children of the target zone have been moved to
the end of the pieces grid while the zone keeps its class list. With an empty target zone
the state is unchanged. -/
theorem dropPiece_unknown_piece {L : Int} {N : Nat} {st : Game} (h : Reachable L N st)
    (s pieceId : Nat) (hs : s < N * N) (hp : ¬ pieceId < N * N) :
    (dropPiece st s pieceId).2 = DropResult.typeError
    ∧ (dropPiece st s pieceId).1.score = st.score
    ∧ (dropPiece st s pieceId).1.hintsUsed = st.hintsUsed
    ∧ (dropPiece st s pieceId).1.pieces = st.pieces
    ∧ ∃ z, st.puzzleGrid[s]? = some z
        ∧ (dropPiece st s pieceId).1.puzzleGrid[s]? = some { z with children := [] }
        ∧ (∀ k, k ≠ s → (dropPiece st s pieceId).1.puzzleGrid[k]? = st.puzzleGrid[k]?)
        ∧ (dropPiece st s pieceId).1.piecesGrid = st.piecesGrid ++ z.children
        ∧ (z.children = [] → (dropPiece st s pieceId).1 = st) := by
  have hinv := (reachable_inv h).1
  have hf := dropPiece_frame st s pieceId
  rw [dropPiece_of_not_lt hinv s hp] at hf ⊢
  obtain ⟨z, hz, hzs, hzk, hpool⟩ := evictExisting_zones hinv hs
  refine ⟨rfl, hf.1, hf.2.1, (evictExisting_spec hinv hs).2.2.1, z, hz, hzs, hzk, hpool, ?_⟩
  intro hnil
  simp [evictExisting, hz, hnil]

/-- C12, the code at the failing input. In the session with piece 2 on drop zone 2, a drop on
zone 2 with the identifier 77, which the selector matches to no piece, ends in the
`TypeError`, but only after the first block of `dropPiece` has run: piece 2 has left zone 2
and is the last child of the pieces grid, and zone 2 is empty with the class `filled` still
on it. Score and hint count are as before. -/
theorem dropPiece_unknown_piece_evicts :
    Reachable 1 3 oneRightSession
    ∧ oneRightSession.puzzleGrid[2]? = some { children := [2], filled := true }
    ∧ oneRightSession.piecesGrid = [1, 3, 4, 5, 6, 7, 8, 0]
    ∧ querySelectorPiece oneRightSession 77 = none
    ∧ (dropPiece oneRightSession 2 77).2 = DropResult.typeError
    ∧ (dropPiece oneRightSession 2 77).1.puzzleGrid[2]? = some { children := [], filled := true }
    ∧ (dropPiece oneRightSession 2 77).1.piecesGrid = [1, 3, 4, 5, 6, 7, 8, 0, 2]
    ∧ (dropPiece oneRightSession 2 77).1 ≠ oneRightSession
    ∧ (dropPiece oneRightSession 2 77).1.score = oneRightSession.score
    ∧ (dropPiece oneRightSession 2 77).1.hintsUsed = oneRightSession.hintsUsed :=
  ⟨Reachable.drop _ 2 2 (Reachable.init initial (fun _ => 0) rfl rfl) (by decide),
    by decide, by decide, by decide, by decide, by decide, by decide, by decide, by decide,
    by decide⟩

/-- C14, the code at the failing input. The state left by the drop with the unmatched
identifier 77 on zone 2 is a state of the session; its zone 2 carries the class `filled` and
has no child, so the pieces-left figure of `updateStats` is 8 while all nine pieces are in
the pieces grid. -/
theorem failed_drop_leaves_filled_mark :
    Reachable 1 3 strandedSession
    ∧ strandedSession.puzzleGrid[2]? = some { children := [], filled := true }
    ∧ ¬ FilledInv strandedSession
    ∧ placedPieces strandedSession = []
    ∧ strandedSession.piecesGrid.length = 9
    ∧ piecesLeft strandedSession = 8 := by
  refine ⟨Reachable.drop _ 2 77
      (Reachable.drop _ 2 2 (Reachable.init initial (fun _ => 0) rfl rfl) (by decide))
      (by decide),
    by decide, ?_, by decide, by decide, by decide⟩
  intro hfi
  have := hfi 2 { children := [], filled := true } (by decide)
  simp at this

/-- The class `filled` in a session whose drops name existing pieces, at concrete inputs:
piece 5 moved from zone 2 to zone 0, and piece 5 dropped on zone 2 on which it sits. -/
theorem filled_invariant_of_placing_examples :
    ReachableByPlacing 1 3 (dropPiece oneWrongSession 0 5).1
    ∧ FilledInv (dropPiece oneWrongSession 0 5).1
    ∧ piecesLeft (dropPiece oneWrongSession 0 5).1 = 8
    ∧ (dropPiece oneWrongSession 0 5).1.piecesGrid.length = 8
    ∧ (dropPiece oneWrongSession 2 5).1.puzzleGrid[2]? = some { children := [5], filled := true }
    ∧ piecesLeft (dropPiece oneWrongSession 2 5).1 = 8 := by
  have hr : ReachableByPlacing 1 3 (dropPiece oneWrongSession 0 5).1 :=
    ReachableByPlacing.drop _ 0 5
      (ReachableByPlacing.drop _ 2 5
        (ReachableByPlacing.drop _ 2 2
          (ReachableByPlacing.init initial (fun _ => 0) rfl rfl) (by decide) (by decide))
        (by decide) (by decide))
      (by decide) (by decide)
  exact ⟨hr, (filled_invariant_of_placing hr).1, by decide, by decide, by decide, by decide⟩

end BillionsPuzzle
